import Mathlib

/-!
Verification of the CBS (Conflict-Based Search) MAPF solver.

Shallow embedding of the core modules:
- `path_utils.py`      : `get_location`, `get_sum_of_cost`
- `map/grid_map.py`    : `GridMap`, `get_neighbours`, `compute_heuristics`
- `cbs/constraint.py`  : `Constraint`, `Collision`, `ConstraintTable`
- `cbs/single_agent_planner.py` : `AStarNode`, `get_path`, `generate_children`,
  `solution_found`, `a_star`
- `cbs/cbs.py`         : `detect_collision`, `detect_collisions`,
  `standard_splitting`, `disjoint_splitting`, `CBSSolver.find_solution`

Modelling conventions:
- Python `Tuple[int, int]` vertices become `Int × Int`; tuples of vertices
  (constraint/collision locations) become `List (Int × Int)`.
- Python dicts keyed by timestep holding sets become lists of entries; set
  membership is list membership (duplicates are irrelevant to membership).
- Python `set` objects become lists; all comparisons that Python performs on
  sets (hash-equality of frozensets) are modelled as mutual-membership tests,
  and all results are proved independent of list order where the source
  relies on set semantics.
- Unbounded `while` loops take a fuel argument and return `none` when the
  fuel runs out; `some r` is the value the Python loop returns.
- `heapq.heappop` returns the minimum entry of the heap; we model the heap
  as a list and pop the first occurrence of the lexicographically least key.
  For runs in which all keys are distinct this coincides exactly with the
  Python behaviour.
- Python dict lookups that can raise `KeyError` (the heuristic table) are
  modelled by passing a total function; the single place where the source
  can actually hit a missing key is analysed separately (claim C4).
-/

namespace MAPF

/-- `path_utils.Vertex`: a grid cell `(x, y)`. -/
abbrev Vertex := Int × Int

/-- `path_utils.Path`: a time-indexed list of vertices. -/
abbrev Path := List Vertex

/-- `path_utils.get_location(path, t)`: `path[t]` for `t < len(path)`,
otherwise the last vertex (wait at the goal location).  The Python code
raises for an empty path; we return a default vertex, and every theorem
that needs it carries a nonemptiness hypothesis. -/
def get_location (path : Path) (t : Nat) : Vertex :=
  if t < path.length then path.getD t (0, 0) else path.getLastD (0, 0)

/-- `path_utils.get_sum_of_cost(paths)`: sum of `len(p) - 1`. -/
def get_sum_of_cost (paths : List Path) : Nat :=
  (paths.map (fun p => p.length - 1)).sum

/-- `grid_map.DIRECTIONS`. -/
def DIRECTIONS : List (Int × Int) := [(0, -1), (1, 0), (0, 1), (-1, 0)]

/-- `grid_map.GridMap`: rectangular boolean occupancy grid
(`map[x][y] = true` means obstacle). -/
structure GridMap where
  map : List (List Bool)
deriving DecidableEq, Repr

/-- `GridMap.in_bounds`. -/
def GridMap.in_bounds (m : GridMap) (loc : Vertex) : Bool :=
  let w : Int := m.map.length
  let h : Int := (m.map.headD []).length
  0 ≤ loc.1 && loc.1 < w && 0 ≤ loc.2 && loc.2 < h

/-- `GridMap.is_free`: in bounds and not an obstacle. -/
def GridMap.is_free (m : GridMap) (loc : Vertex) : Bool :=
  m.in_bounds loc && !((m.map.getD loc.1.toNat []).getD loc.2.toNat false)

/-- `GridMap.get_neighbours`: the cardinal neighbours that are free. -/
def GridMap.get_neighbours (m : GridMap) (curr_loc : Vertex) : List Vertex :=
  DIRECTIONS.filterMap (fun d =>
    let n : Vertex := (curr_loc.1 + d.1, curr_loc.2 + d.2)
    if m.is_free n then some n else none)

/-- `constraint.Constraint`: `(agent, loc, timestep, is_positive_constraint)`.
`loc` is a 1-vertex tuple (vertex constraint) or 2-vertex tuple (edge). -/
structure Constraint where
  agent : Nat
  loc : List Vertex
  timestep : Nat
  is_positive_constraint : Bool := false
deriving DecidableEq, Repr

/-- `constraint.Collision`: `(timestep, conflict, agent_1, agent_2)`. -/
structure Collision where
  timestep : Nat
  conflict : List Vertex
  agent_1 : Nat
  agent_2 : Nat
deriving DecidableEq, Repr

/-- Contribution of one constraint to the positive table of `agent`
(the `constraint.agent == agent and is_positive_constraint` branch of
`ConstraintTable.__init__`). -/
def posContribution (agent : Nat) (c : Constraint) : List (Nat × List Vertex) :=
  if c.agent = agent ∧ c.is_positive_constraint = true then [(c.timestep, c.loc)] else []

/-- Contribution of one constraint to the negative table of `agent`
(the remaining branches of `ConstraintTable.__init__`: own negative
constraints, plus other agents' positive constraints, with the reverse
edge added for other agents' positive edge constraints). -/
def negContribution (agent : Nat) (c : Constraint) : List (Nat × List Vertex) :=
  if c.agent = agent then
    if c.is_positive_constraint then [] else [(c.timestep, c.loc)]
  else
    if c.is_positive_constraint then
      (c.timestep, c.loc) ::
        (if c.loc.length = 2 then [(c.timestep, c.loc.reverse)] else [])
    else []

/-- `constraint.ConstraintTable`: per-agent index of constraints.  The
Python dict-of-sets keyed by timestep is flattened to a list of
`(timestep, loc)` entries; bucket membership is entry membership. -/
structure ConstraintTable where
  positive_entries : List (Nat × List Vertex)
  negative_entries : List (Nat × List Vertex)
deriving DecidableEq, Repr

/-- `ConstraintTable.__init__(constraints, agent)`. -/
def ConstraintTable.ofConstraints (constraints : List Constraint) (agent : Nat) :
    ConstraintTable :=
  ⟨constraints.flatMap (posContribution agent),
   constraints.flatMap (negContribution agent)⟩

/-- `(loc,) in self.negative_constraints.get(t, set())`-style membership. -/
def ConstraintTable.negContains (ct : ConstraintTable) (t : Nat) (loc : List Vertex) : Bool :=
  ct.negative_entries.any (fun e => e.1 == t && e.2 == loc)

/-- Membership in the positive bucket at time `t`. -/
def ConstraintTable.posContains (ct : ConstraintTable) (t : Nat) (loc : List Vertex) : Bool :=
  ct.positive_entries.any (fun e => e.1 == t && e.2 == loc)

/-- `ConstraintTable.is_negatively_constrained(curr, next, t)`. -/
def ConstraintTable.is_negatively_constrained (ct : ConstraintTable)
    (curr_loc next_loc : Vertex) (t : Nat) : Bool :=
  ct.negContains t [next_loc] || ct.negContains t [curr_loc, next_loc]

/-- `ConstraintTable.is_positively_constrained(curr, next, t)`. -/
def ConstraintTable.is_positively_constrained (ct : ConstraintTable)
    (curr_loc next_loc : Vertex) (t : Nat) : Bool :=
  ct.posContains t [next_loc] || ct.posContains t [curr_loc, next_loc]

/-- What it means for a constraint to put entry `(t, loc)` in the negative
table of `agent`: a negative constraint of the agent itself, or a positive
constraint of another agent (with the reverse of 2-vertex edges). -/
def negMatch (agent : Nat) (t : Nat) (loc : List Vertex) (c : Constraint) : Prop :=
  (c.agent = agent ∧ c.is_positive_constraint = false ∧ c.timestep = t ∧ c.loc = loc) ∨
  (c.agent ≠ agent ∧ c.is_positive_constraint = true ∧ c.timestep = t ∧
    (c.loc = loc ∨ (c.loc.length = 2 ∧ loc = c.loc.reverse)))

/-- What it means for a constraint to put entry `(t, loc)` in the positive
table of `agent`. -/
def posMatch (agent : Nat) (t : Nat) (loc : List Vertex) (c : Constraint) : Prop :=
  c.agent = agent ∧ c.is_positive_constraint = true ∧ c.timestep = t ∧ c.loc = loc

/-- The `for t in range(max_t)` loop body of `cbs.detect_collision`,
starting at timestep `t` with `n` iterations remaining. -/
def detectCollisionAux (a1 : Nat) (path1 : Path) (a2 : Nat) (path2 : Path) :
    Nat → Nat → Option Collision
  | _, 0 => none
  | t, n + 1 =>
    let u := get_location path1 t
    let v := get_location path2 t
    if u = v then some ⟨t, [u], a1, a2⟩
    else
      let u' := get_location path1 (t + 1)
      let v' := get_location path2 (t + 1)
      if (u = v ∧ u' = v') ∨ (u = v' ∧ u' = v) then
        some ⟨t + 1, [u, u'], a1, a2⟩
      else detectCollisionAux a1 path1 a2 path2 (t + 1) n

/-- `cbs.detect_collision(a1, path1, a2, path2)`. -/
def detect_collision (a1 : Nat) (path1 : Path) (a2 : Nat) (path2 : Path) :
    Option Collision :=
  detectCollisionAux a1 path1 a2 path2 0 (max path1.length path2.length)

/-- `cbs.detect_collisions(paths)`: first collisions of all pairs `a1 < a2`. -/
def detect_collisions (paths : List Path) : List Collision :=
  (List.range paths.length).flatMap (fun a1 =>
    ((List.range paths.length).drop (a1 + 1)).filterMap (fun a2 =>
      detect_collision a1 (paths.getD a1 []) a2 (paths.getD a2 [])))

/-- Spec predicate: the two paths occupy the same vertex at time `t`
(under the wait-at-goal location semantics). -/
def vertexCollAt (p1 p2 : Path) (t : Nat) : Prop :=
  get_location p1 t = get_location p2 t

/-- Spec predicate: the two paths swap over an edge during `t → t+1`. -/
def swapAt (p1 p2 : Path) (t : Nat) : Prop :=
  get_location p1 t = get_location p2 (t + 1) ∧
  get_location p1 (t + 1) = get_location p2 t

/-- Spec predicate: some collision is recorded with timestep `τ`
(a vertex collision at `τ`, or an edge swap during `τ-1 → τ`). -/
def collAt (p1 p2 : Path) (τ : Nat) : Prop :=
  vertexCollAt p1 p2 τ ∨ (1 ≤ τ ∧ swapAt p1 p2 (τ - 1))

instance (p1 p2 : Path) (t : Nat) : Decidable (vertexCollAt p1 p2 t) := by
  unfold vertexCollAt; infer_instance

instance (p1 p2 : Path) (t : Nat) : Decidable (swapAt p1 p2 t) := by
  unfold swapAt; infer_instance

instance (p1 p2 : Path) (τ : Nat) : Decidable (collAt p1 p2 τ) := by
  unfold collAt; infer_instance

/-- `single_agent_planner.AStarNode`.  The Python field
`parent: Optional[AStarNode]` is modelled with two constructors:
`root` is a node with parent `None`, `child` a node with a parent.  The
`evaluated` flag of the Python dataclass is never read anywhere and is
omitted. -/
inductive AStarNode where
  | root (loc : Vertex) (g_val h_val : Nat) (timestep : Nat)
  | child (loc : Vertex) (g_val h_val : Nat) (parent : AStarNode) (timestep : Nat)
deriving DecidableEq, Repr

namespace AStarNode

def loc : AStarNode → Vertex
  | .root l _ _ _ => l
  | .child l _ _ _ _ => l

def g_val : AStarNode → Nat
  | .root _ g _ _ => g
  | .child _ g _ _ _ => g

def h_val : AStarNode → Nat
  | .root _ _ h _ => h
  | .child _ _ h _ _ => h

def timestep : AStarNode → Nat
  | .root _ _ _ t => t
  | .child _ _ _ _ t => t

/-- `AStarNode.f_val`. -/
def f_val (n : AStarNode) : Nat := n.g_val + n.h_val

end AStarNode

/-- `single_agent_planner.get_path(goal_node)`: walk the parent chain and
reverse (equivalently, the parent's path followed by this node's location). -/
def get_path : AStarNode → Path
  | .root l _ _ _ => [l]
  | .child l _ _ p _ => get_path p ++ [l]

/-- `single_agent_planner.generate_children(grid_map, h_values, curr,
constraint_table)`. -/
def generate_children (grid_map : GridMap) (h_values : Vertex → Nat)
    (curr : AStarNode) (constraint_table : ConstraintTable) : List AStarNode :=
  let next_time := curr.timestep + 1
  let neighbours := grid_map.get_neighbours curr.loc ++ [curr.loc]
  match neighbours.find? (fun next_loc =>
      constraint_table.is_positively_constrained curr.loc next_loc next_time) with
  | some next_loc =>
      [.child next_loc (curr.g_val + 1) (h_values next_loc) curr next_time]
  | none =>
      (neighbours.filter (fun next_loc =>
          !(constraint_table.is_negatively_constrained curr.loc next_loc
            next_time))).map
        (fun next_loc =>
          .child next_loc (curr.g_val + 1) (h_values next_loc) curr next_time)

/-- `single_agent_planner.solution_found(curr, goal_loc, constraint_table)`:
accept a popped node iff it is at the goal and no future negative vertex
constraint on the goal exists. -/
def solution_found (curr : AStarNode) (goal_loc : Vertex)
    (constraint_table : ConstraintTable) : Option Path :=
  if curr.loc ≠ goal_loc then none
  else if constraint_table.negative_entries.any
      (fun e => decide (curr.timestep < e.1) && e.2 == [goal_loc]) then none
  else some (get_path curr)

/-- Lexicographic comparison of `(x, y)` tuples (Python tuple order). -/
def vertexLe (u v : Vertex) : Bool :=
  u.1 < v.1 || (u.1 == v.1 && u.2 ≤ v.2)

/-- The heap key of `push_node`: `(f_val, h_val, loc)`, compared
lexicographically. -/
def nodeKeyLe (a b : AStarNode) : Bool :=
  a.f_val < b.f_val || (a.f_val == b.f_val &&
    (a.h_val < b.h_val || (a.h_val == b.h_val && vertexLe a.loc b.loc)))

/-- `heapq.heappop`: remove the first occurrence of the least element with
respect to `le`.  (For heaps whose keys are pairwise distinct this is
exactly the Python heap's behaviour.) -/
def popMinBy {α : Type} (le : α → α → Bool) : List α → Option (α × List α)
  | [] => none
  | x :: xs =>
    match popMinBy le xs with
    | none => some (x, [])
    | some (m, rest) =>
      if le x m then some (x, xs) else some (m, x :: rest)

/-- `pop_node` of the low-level planner: heap pop by `(f_val, h_val, loc)`. -/
def popMinNode (l : List AStarNode) : Option (AStarNode × List AStarNode) :=
  popMinBy nodeKeyLe l

/-- First-match association-list lookup (Python `dict.get`). -/
def lookupAssoc {α β : Type} [DecidableEq α] : List (α × β) → α → Option β
  | [], _ => none
  | (k, v) :: rest, key => if k = key then some v else lookupAssoc rest key

instance {α β : Type} [DecidableEq α] [DecidableEq β] :
    DecidableEq (Except α β) := fun a b =>
  match a, b with
  | .error x, .error y =>
    if h : x = y then .isTrue (by rw [h])
    else .isFalse (fun he => h (Except.error.inj he))
  | .ok x, .ok y =>
    if h : x = y then .isTrue (by rw [h])
    else .isFalse (fun he => h (Except.ok.inj he))
  | .error _, .ok _ => .isFalse (fun he => Except.noConfusion he)
  | .ok _, .error _ => .isFalse (fun he => Except.noConfusion he)

/-- The `while open_list:` loop of `single_agent_planner.a_star`.
`some none` is Python's `return None` (open list exhausted), `some (some p)`
a found path, and `none` means the fuel ran out. -/
def a_starLoop (grid_map : GridMap) (h_values : Vertex → Nat)
    (goal_loc : Vertex) (constraint_table : ConstraintTable) :
    Nat → List AStarNode → List ((Vertex × Nat) × Nat) → Option (Option Path)
  | 0, _, _ => none
  | fuel + 1, open_list, closed_list =>
    match popMinNode open_list with
    | none => some none
    | some (curr, rest) =>
      let key := (curr.loc, curr.timestep)
      let skip := match lookupAssoc closed_list key with
        | some old_g => decide (old_g ≤ curr.g_val)
        | none => false
      if skip then
        a_starLoop grid_map h_values goal_loc constraint_table fuel rest
          closed_list
      else
        let closed' := (key, curr.g_val) :: closed_list
        match solution_found curr goal_loc constraint_table with
        | some path => some (some path)
        | none =>
          a_starLoop grid_map h_values goal_loc constraint_table fuel
            (rest ++ generate_children grid_map h_values curr constraint_table)
            closed'

/-- `single_agent_planner.a_star(grid_map, start_loc, goal_loc, h_values,
agent, constraints)`.  The heuristic dict is passed as a total function
(Python raises `KeyError` on a missing key; see the C4 analysis). -/
def a_star (grid_map : GridMap) (start_loc goal_loc : Vertex)
    (h_values : Vertex → Nat) (agent : Nat) (constraints : List Constraint)
    (fuel : Nat) : Option (Option Path) :=
  let constraint_table := ConstraintTable.ofConstraints constraints agent
  let root : AStarNode := .root start_loc 0 (h_values start_loc) 0
  a_starLoop grid_map h_values goal_loc constraint_table fuel [root] []

/-- A move `u → v` arriving at time `t` that `generate_children` can emit:
either positively forced, or not negatively constrained. -/
def moveOk (ct : ConstraintTable) (u v : Vertex) (t : Nat) : Prop :=
  ct.is_positively_constrained u v t = true ∨
  ct.is_negatively_constrained u v t = false

/-- Well-formedness of a search node as produced by the search: the root
chain starts at `start` at timestep 0, timesteps increase by one, and every
move along the chain is one `generate_children` admits. -/
def nodeOk (ct : ConstraintTable) (start : Vertex) : AStarNode → Prop
  | .root l _ _ t => l = start ∧ t = 0
  | .child l _ _ p t => t = p.timestep + 1 ∧ moveOk ct p.loc l t ∧ nodeOk ct start p

/-- Heap key order of `compute_heuristics`: `(cost, loc)` lexicographically. -/
def heurKeyLe (a b : Nat × Vertex) : Bool :=
  a.1 < b.1 || (a.1 == b.1 && vertexLe a.2 b.2)

/-- The `for child_loc in self.get_neighbours(loc)` relaxation loop of
`compute_heuristics` on the state `(open_list, closed_list)`: record a
child cost when it improves on the stored one, and push the entry. -/
def relaxChildren (cost : Nat) :
    List Vertex → List (Nat × Vertex) × List (Vertex × Nat) →
    List (Nat × Vertex) × List (Vertex × Nat)
  | [], st => st
  | child_loc :: rest_ns, st =>
    let child_cost := cost + 1
    let st2 := match lookupAssoc st.2 child_loc with
      | some old =>
        if child_cost < old then
          (st.1 ++ [(child_cost, child_loc)], (child_loc, child_cost) :: st.2)
        else st
      | none =>
        (st.1 ++ [(child_cost, child_loc)], (child_loc, child_cost) :: st.2)
    relaxChildren cost rest_ns st2

/-- The `while` loop of `GridMap.compute_heuristics`.  The stale-entry test
`closed_list[loc] < cost` cannot hit a missing key in Python (every pushed
location is recorded first); the `none` branch of the lookup is therefore
unreachable and treated as "not stale". -/
def dijkstraLoop (m : GridMap) :
    Nat → List (Nat × Vertex) → List (Vertex × Nat) →
    Option (List (Vertex × Nat))
  | 0, _, _ => none
  | fuel + 1, open_list, closed_list =>
    match popMinBy heurKeyLe open_list with
    | none => some closed_list
    | some ((cost, loc), rest) =>
      let stale := match lookupAssoc closed_list loc with
        | some best => decide (best < cost)
        | none => false
      if stale then dijkstraLoop m fuel rest closed_list
      else
        let st := relaxChildren cost (m.get_neighbours loc) (rest, closed_list)
        dijkstraLoop m fuel st.1 st.2

/-- `GridMap.compute_heuristics(goal)`: Dijkstra from the goal over the
free grid, as a cost table (association list). -/
def GridMap.compute_heuristics (m : GridMap) (goal : Vertex) (fuel : Nat) :
    Option (List (Vertex × Nat)) :=
  dijkstraLoop m fuel [(0, goal)] [(goal, 0)]

/-- A walk of length `k` starting at `g` and following `get_neighbours`
steps: exactly the graph that `compute_heuristics` explores. -/
inductive CodeWalk (m : GridMap) (g : Vertex) : Vertex → Nat → Prop
  | base : CodeWalk m g g 0
  | step {v n k} : CodeWalk m g v k → n ∈ m.get_neighbours v →
      CodeWalk m g n (k + 1)

/-- One step of the free 4-connected subgraph (the spec's graph): both
endpoints free and cardinally adjacent. -/
def freeStep (m : GridMap) (u v : Vertex) : Prop :=
  m.is_free u = true ∧ m.is_free v = true ∧
    ∃ d ∈ DIRECTIONS, v = (u.1 + d.1, u.2 + d.2)

instance (m : GridMap) (u v : Vertex) : Decidable (freeStep m u v) := by
  unfold freeStep; infer_instance

/-- A path of length `k` from `u` to `w` on the free 4-connected subgraph
with unit edge costs (the spec's notion of shortest-path distance). -/
inductive FreePath (m : GridMap) : Vertex → Vertex → Nat → Prop
  | base (v) : FreePath m v v 0
  | step {u v w k} : freeStep m u v → FreePath m v w k → FreePath m u w (k + 1)

/-- Loop invariant of `dijkstraLoop`: every stored cost is witnessed by a
walk, every heap entry is recorded in the table at a no-worse cost, and
every recorded vertex is either still pending in the heap at its recorded
cost or has all its neighbours relaxed. -/
structure DijkstraInv (m : GridMap) (g : Vertex)
    (openl : List (Nat × Vertex)) (closed : List (Vertex × Nat)) : Prop where
  goal0 : lookupAssoc closed g = some 0
  sound : ∀ v d, lookupAssoc closed v = some d → CodeWalk m g v d
  openInv : ∀ e ∈ openl, CodeWalk m g e.2 e.1 ∧
    ∃ d, lookupAssoc closed e.2 = some d ∧ d ≤ e.1
  tracked : ∀ v d, lookupAssoc closed v = some d →
    (d, v) ∈ openl ∨
      ∀ n ∈ m.get_neighbours v, ∃ dn, lookupAssoc closed n = some dn ∧ dn ≤ d + 1

/-- `cbs.standard_splitting(collision)`: two negative constraints.  (Python
raises on a conflict tuple that is neither 1- nor 2-vertex; such collisions
are never produced, and the fallthrough returns `[]`.) -/
def standard_splitting (collision : Collision) : List Constraint :=
  match collision.conflict with
  | [_] =>
      [⟨collision.agent_1, collision.conflict, collision.timestep, false⟩,
       ⟨collision.agent_2, collision.conflict, collision.timestep, false⟩]
  | [_, _] =>
      [⟨collision.agent_1, collision.conflict, collision.timestep, false⟩,
       ⟨collision.agent_2, collision.conflict.reverse, collision.timestep, false⟩]
  | _ => []

/-- `cbs.disjoint_splitting(collision)`: a positive/negative pair on one of
the two agents.  The `random.randint(0, 1)` draw is an explicit argument
`coin` (`0` picks `agent_1`, otherwise `agent_2`). -/
def disjoint_splitting (collision : Collision) (coin : Nat) : List Constraint :=
  let colliding_agent :=
    if coin = 0 then collision.agent_1 else collision.agent_2
  match collision.conflict with
  | [_] =>
      [⟨colliding_agent, collision.conflict, collision.timestep, true⟩,
       ⟨colliding_agent, collision.conflict, collision.timestep, false⟩]
  | [_, _] =>
      let conflict :=
        if colliding_agent = collision.agent_1 then collision.conflict
        else collision.conflict.reverse
      [⟨colliding_agent, conflict, collision.timestep, true⟩,
       ⟨colliding_agent, conflict, collision.timestep, false⟩]
  | _ => []

/-- `CBSSolver._path_violates_positive_constraint(constraint, paths)`. -/
def path_violates_positive_constraint (constraint : Constraint)
    (paths : List Path) : List Nat :=
  (List.range paths.length).filter (fun i =>
    if i = constraint.agent then false
    else
      let curr := get_location (paths.getD i []) constraint.timestep
      match constraint.loc with
      | [u] => decide (u = curr)
      | [u, v] =>
        let prev := get_location (paths.getD i []) (constraint.timestep - 1)
        decide ((prev = u ∧ curr = v) ∨ (prev = v ∧ curr = u))
      | _ => false)

/-- A conflict-tree node of `CBSSolver.find_solution` (the Python dict with
keys `cost`, `constraints`, `paths`, `collisions`).  The Python constraint
`set` is a duplicate-free list; every use of it is order-insensitive. -/
structure CBSNode where
  cost : Nat
  constraints : List Constraint
  paths : List Path
  collisions : List Collision
deriving DecidableEq, Repr

/-- `set.add` on the constraint set. -/
def addConstraint (s : List Constraint) (c : Constraint) : List Constraint :=
  if c ∈ s then s else s ++ [c]

/-- `frozenset` equality of two constraint lists. -/
def constraintSetEq (s1 s2 : List Constraint) : Bool :=
  s1.all (fun c => decide (c ∈ s2)) && s2.all (fun c => decide (c ∈ s1))

/-- Equality of `CBSSolver.create_state_key` values: the paths tuples are
compared structurally, the constraint frozensets as sets. -/
def stateKeyEq (a b : List Path × List Constraint) : Bool :=
  a.1 == b.1 && constraintSetEq a.2 b.2

/-- `state_key in closed_list`. -/
def keySeen (closed : List (List Path × List Constraint))
    (key : List Path × List Constraint) : Bool :=
  closed.any (fun k => stateKeyEq k key)

/-- `CBSSolver.low_level_cache`, keyed by `(agent, frozenset(constraints))`. -/
abbrev LowLevelCache := List ((Nat × List Constraint) × Path)

/-- `cache_key in self.low_level_cache` followed by the cached read. -/
def cacheLookup (cache : LowLevelCache) (agent : Nat)
    (constraints : List Constraint) : Option Path :=
  match cache.find? (fun e =>
      e.1.1 == agent && constraintSetEq e.1.2 constraints) with
  | some e => some e.2
  | none => none

/-- `CBSSolver._find_agent_paths(agents, constraints)`.  Returns the updated
cache alongside the result (Python mutates `self.low_level_cache`); the
outer `none` means an inner `a_star` call ran out of fuel. -/
def find_agent_paths (grid_map : GridMap) (starts goals : List Vertex)
    (heuristics : List (Vertex → Nat)) (aFuel : Nat) :
    List Nat → List Constraint → LowLevelCache →
    Option (Option (List (Nat × Path)) × LowLevelCache)
  | [], _, cache => some (some [], cache)
  | agent :: agents, constraints, cache =>
    match cacheLookup cache agent constraints with
    | some path =>
      match find_agent_paths grid_map starts goals heuristics aFuel agents
          constraints cache with
      | none => none
      | some (none, cache2) => some (none, cache2)
      | some (some rest, cache2) => some (some ((agent, path) :: rest), cache2)
    | none =>
      match a_star grid_map (starts.getD agent (0, 0)) (goals.getD agent (0, 0))
          (heuristics.getD agent (fun _ => 0)) agent constraints aFuel with
      | none => none
      | some none => some (none, cache)
      | some (some path) =>
        let cache2 := cache ++ [((agent, constraints), path)]
        match find_agent_paths grid_map starts goals heuristics aFuel agents
            constraints cache2 with
        | none => none
        | some (none, cache3) => some (none, cache3)
        | some (some rest, cache3) => some (some ((agent, path) :: rest), cache3)

/-- Apply a result of `_find_agent_paths` to a paths vector
(`child["paths"][a] = p` for each returned agent). -/
def applyPaths (paths : List Path) (updates : List (Nat × Path)) : List Path :=
  updates.foldl (fun acc u => acc.set u.1 u.2) paths

/-- High-level heap key order: `(cost, len(collisions), generation id)`,
compared lexicographically (ids are unique, so the node is never compared). -/
def cbsKeyLe (a b : Nat × Nat × Nat) : Bool :=
  a.1 < b.1 || (a.1 == b.1 &&
    (a.2.1 < b.2.1 || (a.2.1 == b.2.1 && a.2.2 ≤ b.2.2)))

/-- An entry of the high-level open list. -/
abbrev CBSEntry := (Nat × Nat × Nat) × CBSNode

def cbsEntryLe (x y : CBSEntry) : Bool := cbsKeyLe x.1 y.1

/-- The mutable pieces of `CBSSolver` during `find_solution`: the open
list, the closed fingerprint set, the low-level cache, the generation
counter, and the position in the random stream. -/
structure CBSState where
  open_list : List CBSEntry
  closed_keys : List (List Path × List Constraint)
  cache : LowLevelCache
  num_generated : Nat
  rng_index : Nat
deriving Repr

/-- `CBSSolver.push_node(node)`. -/
def push_node (st : CBSState) (node : CBSNode) : CBSState :=
  { st with
    open_list := st.open_list ++
      [((node.cost, node.collisions.length, st.num_generated), node)],
    num_generated := st.num_generated + 1 }

/-- The tail of the per-constraint child processing: duplicate check,
collision detection, cost, push (`find_solution` loop body, steps after the
replans succeed). -/
def finishChild (paths : List Path) (constraints : List Constraint)
    (cache : LowLevelCache) (st : CBSState) : CBSState :=
  let key := (paths, constraints)
  if keySeen st.closed_keys key then { st with cache := cache }
  else
    let collisions := detect_collisions paths
    let cost := get_sum_of_cost paths
    push_node
      { st with cache := cache, closed_keys := st.closed_keys ++ [key] }
      (⟨cost, constraints, paths, collisions⟩ : CBSNode)

/-- One iteration of `for constraint in constraints:` in
`CBSSolver.find_solution`: build the child, replan the constrained agent,
do the disjoint positive repair, and push unless pruned.  `none` is fuel
exhaustion of the low-level search. -/
def processConstraint (grid_map : GridMap) (starts goals : List Vertex)
    (heuristics : List (Vertex → Nat)) (aFuel : Nat) (disjoint : Bool)
    (next_node : CBSNode) (st : CBSState) (constraint : Constraint) :
    Option CBSState :=
  let constraints2 := addConstraint next_node.constraints constraint
  match find_agent_paths grid_map starts goals heuristics aFuel
      [constraint.agent] constraints2 st.cache with
  | none => none
  | some (none, cache2) => some { st with cache := cache2 }
  | some (some ps, cache2) =>
    let child_paths := applyPaths next_node.paths ps
    if disjoint && constraint.is_positive_constraint then
      let violating := path_violates_positive_constraint constraint child_paths
      match find_agent_paths grid_map starts goals heuristics aFuel
          violating constraints2 cache2 with
      | none => none
      | some (none, cache3) => some { st with cache := cache3 }
      | some (some ps2, cache3) =>
        some (finishChild (applyPaths child_paths ps2) constraints2 cache3 st)
    else
      some (finishChild child_paths constraints2 cache2 st)

/-- The `for constraint in constraints:` loop. -/
def processConstraints (grid_map : GridMap) (starts goals : List Vertex)
    (heuristics : List (Vertex → Nat)) (aFuel : Nat) (disjoint : Bool)
    (next_node : CBSNode) :
    List Constraint → CBSState → Option CBSState
  | [], st => some st
  | c :: cs, st =>
    match processConstraint grid_map starts goals heuristics aFuel disjoint
        next_node st c with
    | none => none
    | some st2 =>
      processConstraints grid_map starts goals heuristics aFuel disjoint
        next_node cs st2

/-- The `while len(self.open_list) > 0:` loop of `find_solution`.
`some paths` is the Python return value (either a conflict-free node's
paths, or the root's paths on exhaustion); `none` means fuel ran out. -/
def cbsLoop (grid_map : GridMap) (starts goals : List Vertex)
    (heuristics : List (Vertex → Nat)) (aFuel : Nat) (disjoint : Bool)
    (rng : Nat → Nat) :
    Nat → CBSState → List Path → Option (List Path)
  | 0, _, _ => none
  | fuel + 1, st, root_paths =>
    match popMinBy cbsEntryLe st.open_list with
    | none => some root_paths
    | some (entry, rest) =>
      let next_node := entry.2
      let st1 := { st with open_list := rest }
      if next_node.collisions = [] then some next_node.paths
      else
        let first_collision := next_node.collisions.getLastD ⟨0, [], 0, 0⟩
        let constraints :=
          if disjoint then disjoint_splitting first_collision (rng st1.rng_index)
          else standard_splitting first_collision
        let st2 :=
          if disjoint then { st1 with rng_index := st1.rng_index + 1 } else st1
        match processConstraints grid_map starts goals heuristics aFuel
            disjoint next_node constraints st2 with
        | none => none
        | some st3 =>
          cbsLoop grid_map starts goals heuristics aFuel disjoint rng fuel
            st3 root_paths

/-- `CBSSolver.find_solution(disjoint)`, together with the heuristics
computation of `CBSSolver.__init__`.  `some (.error "No solutions")` is the
`BaseException` raised when the root has no solution; `none` means one of
the fuelled loops ran out of fuel. -/
def find_solution (grid_map : GridMap) (starts goals : List Vertex)
    (disjoint : Bool) (rng : Nat → Nat) (hFuel aFuel cbsFuel : Nat) :
    Option (Except String (List Path)) :=
  match goals.mapM (fun goal => grid_map.compute_heuristics goal hFuel) with
  | none => none
  | some tables =>
    let heuristics :=
      tables.map (fun tbl => fun v => (lookupAssoc tbl v).getD 0)
    let num_of_agents := goals.length
    match find_agent_paths grid_map starts goals heuristics aFuel
        (List.range num_of_agents) [] [] with
    | none => none
    | some (none, _) => some (.error "No solutions")
    | some (some ps, cache) =>
      let root_paths := ps.map Prod.snd
      let root : CBSNode :=
        ⟨get_sum_of_cost root_paths, [], root_paths,
          detect_collisions root_paths⟩
      let st0 : CBSState := ⟨[], [], cache, 0, 0⟩
      let st1 := push_node st0 root
      let st2 := { st1 with closed_keys := [(root_paths, [])] }
      match cbsLoop grid_map starts goals heuristics aFuel disjoint rng
          cbsFuel st2 root_paths with
      | none => none
      | some paths => some (.ok paths)

/-- Heuristic table of the 1×2 corridor with goal `(0, 1)`, as a function
(used by concrete `a_star` runs). -/
def hTableB : Vertex → Nat := fun v => if v = (0, 0) then 1 else 0

/-- The obstacle-free 2×3 grid of the concrete disjoint-splitting run. -/
def mapC3 : GridMap := ⟨[[false, false, false], [false, false, false]]⟩

/-- Start cells of that run: agents 0, 1, 2 start at `(1,0)`, `(0,1)`,
`(1,1)`. -/
def startsC3 : List Vertex := [(1, 0), (0, 1), (1, 1)]

/-- Goal cells of that run: agents 0, 1, 2 aim for `(0,2)`, `(0,1)`,
`(0,0)`. -/
def goalsC3 : List Vertex := [(0, 2), (0, 1), (0, 0)]

/-- The `random.randint(0, 1)` coin stream consumed by
`disjoint_splitting` in that run: the period-5 pattern `0,0,1,0,0`. -/
def rngC3 : Nat → Nat := fun i => [0, 0, 1, 0, 0].getD (i % 5) 0

/-- The paths `find_solution` returns on that run (sum of costs 8: agent 1
leaves its goal, waits a step at `(0,2)` and returns). -/
def pathsC3 : List Path :=
  [[(1, 0), (1, 1), (1, 2), (0, 2)],
   [(0, 1), (0, 2), (0, 2), (0, 1)],
   [(1, 1), (0, 1), (0, 0)]]

/-- A cheaper solution of the same instance (sum of costs 7): identical to
`pathsC3` except that agent 1 returns to its goal without the wait. -/
def cheaperC3 : List Path :=
  [[(1, 0), (1, 1), (1, 2), (0, 2)],
   [(0, 1), (0, 2), (0, 1)],
   [(1, 1), (0, 1), (0, 0)]]

/-- Spec-side notion quantified over by claim C3 ("collision-free sets of
time-indexed paths for that instance"): one nonempty path per agent, over
free cells only, starting at the agent's start cell and ending at its goal
cell; every time-indexed step (in the sense of `get_location`, so agents
park at their final vertex forever) is a wait or a move along a free grid
edge; and no two agents ever share a vertex or swap along an edge, at any
timestep. -/
def validSolution (m : GridMap) (starts goals : List Vertex)
    (paths : List Path) : Prop :=
  paths.length = starts.length ∧ paths.length = goals.length ∧
  (∀ i, i < paths.length →
    paths.getD i [] ≠ [] ∧
    (paths.getD i []).headD (0, 0) = starts.getD i (0, 0) ∧
    (paths.getD i []).getLastD (0, 0) = goals.getD i (0, 0) ∧
    (∀ v ∈ paths.getD i [], m.is_free v = true) ∧
    ∀ t, get_location (paths.getD i []) (t + 1) =
           get_location (paths.getD i []) t ∨
         freeStep m (get_location (paths.getD i []) t)
           (get_location (paths.getD i []) (t + 1))) ∧
  (∀ i j, i < paths.length → j < paths.length → i ≠ j → ∀ t,
    ¬ vertexCollAt (paths.getD i []) (paths.getD j []) t ∧
    ¬ swapAt (paths.getD i []) (paths.getD j []) t)

theorem mem_negEntries_iff (cs : List Constraint) (agent : Nat) (e : Nat × List Vertex) :
    e ∈ (ConstraintTable.ofConstraints cs agent).negative_entries ↔
      ∃ c ∈ cs, negMatch agent e.1 e.2 c := by
  obtain ⟨et, eloc⟩ := e
  simp only [ConstraintTable.ofConstraints, List.mem_flatMap]
  constructor
  · rintro ⟨c, hc, hmem⟩
    refine ⟨c, hc, ?_⟩
    unfold negContribution at hmem
    unfold negMatch
    by_cases hag : c.agent = agent
    · simp only [hag, if_pos rfl] at hmem
      by_cases hpos : c.is_positive_constraint
      · simp [hpos] at hmem
      · simp only [Bool.not_eq_true] at hpos
        simp [hpos, Prod.ext_iff] at hmem
        obtain ⟨h1, h2⟩ := hmem
        subst h1; subst h2
        exact Or.inl ⟨hag, hpos, rfl, rfl⟩
    · simp only [if_neg hag] at hmem
      by_cases hpos : c.is_positive_constraint
      · simp only [if_pos hpos, List.mem_cons] at hmem
        rcases hmem with h | h
        · simp only [Prod.mk.injEq] at h
          obtain ⟨h1, h2⟩ := h
          subst h1; subst h2
          exact Or.inr ⟨hag, hpos, rfl, Or.inl rfl⟩
        · by_cases hlen : c.loc.length = 2
          · simp only [if_pos hlen, List.mem_singleton, Prod.mk.injEq] at h
            obtain ⟨h1, h2⟩ := h
            subst h1; subst h2
            exact Or.inr ⟨hag, hpos, rfl, Or.inr ⟨hlen, rfl⟩⟩
          · simp [hlen] at h
      · simp [hpos] at hmem
  · rintro ⟨c, hc, hm⟩
    refine ⟨c, hc, ?_⟩
    unfold negMatch at hm
    unfold negContribution
    rcases hm with ⟨hag, hpos, ht, hloc⟩ | ⟨hag, hpos, ht, hloc⟩
    · subst ht; subst hloc
      simp [negContribution, hag, hpos]
    · subst ht
      rcases hloc with hloc | ⟨hlen, hloc⟩
      · subst hloc
        simp [negContribution, hag, hpos]
      · subst hloc
        simp [negContribution, hag, hpos, hlen]

theorem mem_posEntries_iff (cs : List Constraint) (agent : Nat) (e : Nat × List Vertex) :
    e ∈ (ConstraintTable.ofConstraints cs agent).positive_entries ↔
      ∃ c ∈ cs, posMatch agent e.1 e.2 c := by
  obtain ⟨et, eloc⟩ := e
  simp only [ConstraintTable.ofConstraints, List.mem_flatMap]
  constructor
  · rintro ⟨c, hc, hmem⟩
    refine ⟨c, hc, ?_⟩
    unfold posContribution at hmem
    by_cases h : c.agent = agent ∧ c.is_positive_constraint = true
    · simp only [if_pos h, List.mem_singleton, Prod.ext_iff] at hmem
      obtain ⟨h1, h2⟩ := hmem
      subst h1; subst h2
      exact ⟨h.1, h.2, rfl, rfl⟩
    · simp [h] at hmem
  · rintro ⟨c, hc, ⟨hag, hpos, ht, hloc⟩⟩
    refine ⟨c, hc, ?_⟩
    subst ht; subst hloc
    simp [posContribution, hag, hpos]

theorem negContains_iff (cs : List Constraint) (agent : Nat) (t : Nat) (loc : List Vertex) :
    (ConstraintTable.ofConstraints cs agent).negContains t loc = true ↔
      ∃ c ∈ cs, negMatch agent t loc c := by
  unfold ConstraintTable.negContains
  rw [List.any_eq_true]
  constructor
  · rintro ⟨e, he, hmatch⟩
    simp only [Bool.and_eq_true, beq_iff_eq] at hmatch
    obtain ⟨h1, h2⟩ := hmatch
    rw [mem_negEntries_iff] at he
    rwa [← h1, ← h2]
  · intro h
    refine ⟨(t, loc), ?_, by simp⟩
    rw [mem_negEntries_iff]
    exact h

theorem posContains_iff (cs : List Constraint) (agent : Nat) (t : Nat) (loc : List Vertex) :
    (ConstraintTable.ofConstraints cs agent).posContains t loc = true ↔
      ∃ c ∈ cs, posMatch agent t loc c := by
  unfold ConstraintTable.posContains
  rw [List.any_eq_true]
  constructor
  · rintro ⟨e, he, hmatch⟩
    simp only [Bool.and_eq_true, beq_iff_eq] at hmatch
    obtain ⟨h1, h2⟩ := hmatch
    rw [mem_posEntries_iff] at he
    rwa [← h1, ← h2]
  · intro h
    refine ⟨(t, loc), ?_, by simp⟩
    rw [mem_posEntries_iff]
    exact h

theorem get_location_of_last (p : Path) {t : Nat}
    (h : p.length ≤ t + 1) : get_location p t = p.getLastD (0, 0) := by
  unfold get_location
  by_cases hlt : t < p.length
  · rw [if_pos hlt]
    have hlen : t = p.length - 1 := by omega
    subst hlen
    rw [List.getD_eq_getElem _ _ hlt, List.getLastD_eq_getLast?,
      List.getLast?_eq_getElem?]
    simp [List.getElem?_eq_getElem hlt]
  · rw [if_neg hlt]

theorem detectAux_none_clean (a1 a2 : Nat) (p1 p2 : Path) :
    ∀ n t, detectCollisionAux a1 p1 a2 p2 t n = none →
      ∀ k, k < n → ¬ vertexCollAt p1 p2 (t + k) ∧ ¬ swapAt p1 p2 (t + k) := by
  intro n
  induction n with
  | zero => intro t _ k hk; omega
  | succ n ih =>
    intro t hnone k hk
    unfold detectCollisionAux at hnone
    by_cases hv : get_location p1 t = get_location p2 t
    · rw [if_pos hv] at hnone; exact absurd hnone (by simp)
    · rw [if_neg hv] at hnone
      by_cases he : (get_location p1 t = get_location p2 t ∧
            get_location p1 (t + 1) = get_location p2 (t + 1)) ∨
          (get_location p1 t = get_location p2 (t + 1) ∧
            get_location p1 (t + 1) = get_location p2 t)
      · rw [if_pos he] at hnone; exact absurd hnone (by simp)
      · rw [if_neg he] at hnone
        rcases Nat.eq_zero_or_pos k with hk0 | hkpos
        · subst hk0
          refine ⟨by simpa [vertexCollAt] using hv, ?_⟩
          intro hswap
          exact he (Or.inr ⟨hswap.1, hswap.2⟩)
        · have := ih (t + 1) hnone (k - 1) (by omega)
          have harith : t + 1 + (k - 1) = t + k := by omega
          rw [harith] at this
          exact this

theorem detectAux_some_spec (a1 a2 : Nat) (p1 p2 : Path) :
    ∀ n t c, detectCollisionAux a1 p1 a2 p2 t n = some c →
      ∃ k, k < n ∧
        (∀ j, j < k → ¬ vertexCollAt p1 p2 (t + j) ∧ ¬ swapAt p1 p2 (t + j)) ∧
        ((c = ⟨t + k, [get_location p1 (t + k)], a1, a2⟩ ∧
            vertexCollAt p1 p2 (t + k)) ∨
         (¬ vertexCollAt p1 p2 (t + k) ∧ swapAt p1 p2 (t + k) ∧
            c = ⟨t + k + 1,
              [get_location p1 (t + k), get_location p1 (t + k + 1)], a1, a2⟩)) := by
  intro n
  induction n with
  | zero => intro t c hc; exact absurd hc (by simp [detectCollisionAux])
  | succ n ih =>
    intro t c hc
    unfold detectCollisionAux at hc
    by_cases hv : get_location p1 t = get_location p2 t
    · rw [if_pos hv] at hc
      refine ⟨0, by omega, by omega, Or.inl ?_⟩
      simp only [Nat.add_zero]
      exact ⟨(Option.some.injEq _ _ ▸ hc).symm, hv⟩
    · rw [if_neg hv] at hc
      by_cases he : (get_location p1 t = get_location p2 t ∧
            get_location p1 (t + 1) = get_location p2 (t + 1)) ∨
          (get_location p1 t = get_location p2 (t + 1) ∧
            get_location p1 (t + 1) = get_location p2 t)
      · rw [if_pos he] at hc
        refine ⟨0, by omega, by omega, Or.inr ?_⟩
        simp only [Nat.add_zero]
        have hswap : swapAt p1 p2 t := by
          rcases he with ⟨h1, _⟩ | ⟨h1, h2⟩
          · exact absurd h1 hv
          · exact ⟨h1, h2⟩
        exact ⟨hv, hswap, (Option.some.injEq _ _ ▸ hc).symm⟩
      · rw [if_neg he] at hc
        obtain ⟨k, hk, hclean, hres⟩ := ih (t + 1) c hc
        refine ⟨k + 1, by omega, ?_, ?_⟩
        · intro j hj
          rcases Nat.eq_zero_or_pos j with hj0 | hjpos
          · subst hj0
            refine ⟨by simpa [vertexCollAt] using hv, ?_⟩
            intro hswap
            exact he (Or.inr ⟨hswap.1, hswap.2⟩)
          · have := hclean (j - 1) (by omega)
            have harith : t + 1 + (j - 1) = t + j := by omega
            rwa [harith] at this
        · have harith : t + 1 + k = t + (k + 1) := by omega
          rwa [harith] at hres

theorem locs_stable (p1 p2 : Path) (h1 : p1 ≠ []) (h2 : p2 ≠ []) {τ : Nat}
    (hτ : max p1.length p2.length - 1 ≤ τ) :
    get_location p1 τ = get_location p1 (max p1.length p2.length - 1) ∧
    get_location p2 τ = get_location p2 (max p1.length p2.length - 1) := by
  have hl1 : 1 ≤ p1.length := List.length_pos.mpr h1
  have hl2 : 1 ≤ p2.length := List.length_pos.mpr h2
  constructor
  · rw [get_location_of_last p1 (by omega), get_location_of_last p1 (by omega)]
  · rw [get_location_of_last p2 (by omega), get_location_of_last p2 (by omega)]

/-- If the scan range is clean and there is no vertex collision at the last
in-range timestep, there is no collision at any recorded timestep at all. -/
theorem no_collAt_of_clean (p1 p2 : Path) (h1 : p1 ≠ []) (h2 : p2 ≠ [])
    (hclean : ∀ k, k < max p1.length p2.length →
      ¬ vertexCollAt p1 p2 k ∧ ¬ swapAt p1 p2 k) :
    ∀ τ, ¬ collAt p1 p2 τ := by
  intro τ hcoll
  set N := max p1.length p2.length with hN
  have hl1 : 1 ≤ p1.length := List.length_pos.mpr h1
  have hNpos : 1 ≤ N := le_trans hl1 (le_max_left _ _)
  have hlastclean := hclean (N - 1) (by omega)
  rcases hcoll with hv | ⟨hτ1, hs⟩
  · by_cases hτN : τ < N
    · exact (hclean τ hτN).1 hv
    · have hst := locs_stable p1 p2 h1 h2 (τ := τ) (by omega)
      exact hlastclean.1 (by unfold vertexCollAt; rw [← hst.1, ← hst.2]; exact hv)
  · by_cases hτN : τ - 1 < N
    · exact (hclean (τ - 1) hτN).2 hs
    · -- beyond the range both paths sit at their last vertices, so a swap
      -- would already be a vertex collision at N - 1
      have hstA := locs_stable p1 p2 h1 h2 (τ := τ - 1) (by omega)
      have hstB := locs_stable p1 p2 h1 h2 (τ := τ - 1 + 1) (by omega)
      refine hlastclean.1 ?_
      unfold vertexCollAt
      unfold swapAt at hs
      rw [← hstA.1, ← hstB.2]
      exact hs.1

theorem detect_collision_none (a1 a2 : Nat) (p1 p2 : Path) (h1 : p1 ≠ [])
    (h2 : p2 ≠ []) (hnone : detect_collision a1 p1 a2 p2 = none) :
    ∀ τ, ¬ collAt p1 p2 τ := by
  refine no_collAt_of_clean p1 p2 h1 h2 ?_
  intro k hk
  have := detectAux_none_clean a1 a2 p1 p2 (max p1.length p2.length) 0 hnone k hk
  simpa using this

theorem detect_collision_spec (a1 a2 : Nat) (p1 p2 : Path) (c : Collision)
    (hc : detect_collision a1 p1 a2 p2 = some c) :
    (∀ τ, τ < c.timestep → ¬ collAt p1 p2 τ) ∧
    ((c.conflict = [get_location p1 c.timestep] ∧
        vertexCollAt p1 p2 c.timestep) ∨
     (1 ≤ c.timestep ∧ ¬ vertexCollAt p1 p2 (c.timestep - 1) ∧
        swapAt p1 p2 (c.timestep - 1) ∧
        c.conflict = [get_location p1 (c.timestep - 1),
          get_location p1 c.timestep])) ∧
    c.agent_1 = a1 ∧ c.agent_2 = a2 := by
  obtain ⟨k, hk, hclean, hres⟩ :=
    detectAux_some_spec a1 a2 p1 p2 (max p1.length p2.length) 0 c hc
  simp only [Nat.zero_add] at hclean hres
  rcases hres with ⟨hceq, hv⟩ | ⟨hnv, hs, hceq⟩
  · subst hceq
    refine ⟨?_, Or.inl ⟨rfl, hv⟩, rfl, rfl⟩
    intro τ hτ hcoll
    have hτk : τ < k := hτ
    rcases hcoll with hvc | ⟨hτ1, hsc⟩
    · exact (hclean τ hτk).1 hvc
    · exact (hclean (τ - 1) (by omega)).2 hsc
  · subst hceq
    refine ⟨?_, Or.inr ⟨by show 1 ≤ k + 1; omega, by simpa using hnv,
      by simpa using hs, by simp⟩, rfl, rfl⟩
    intro τ hτ hcoll
    have hτk : τ < k + 1 := hτ
    rcases hcoll with hvc | ⟨hτ1, hsc⟩
    · rcases Nat.lt_or_ge τ k with h | h
      · exact (hclean τ h).1 hvc
      · have : τ = k := by omega
        subst this
        exact hnv hvc
    · exact (hclean (τ - 1) (by omega)).2 hsc

theorem detect_collisions_eq_nil (paths : List Path)
    (hnil : detect_collisions paths = []) :
    ∀ i j, i < j → j < paths.length →
      detect_collision i (paths.getD i []) j (paths.getD j []) = none := by
  intro i j hij hj
  unfold detect_collisions at hnil
  rw [List.flatMap_eq_nil_iff] at hnil
  have hi : i ∈ List.range paths.length := List.mem_range.mpr (by omega)
  have hfm := hnil i hi
  rw [List.filterMap_eq_nil_iff] at hfm
  have hjmem : j ∈ (List.range paths.length).drop (i + 1) := by
    have h2 : j - (i + 1) < ((List.range paths.length).drop (i + 1)).length := by
      simp [List.length_drop]; omega
    have h3 := List.getElem_mem h2
    rw [List.getElem_drop, List.getElem_range] at h3
    have h4 : i + 1 + (j - (i + 1)) = j := by omega
    rwa [h4] at h3
  exact hfm j hjmem

theorem popMinBy_perm {α : Type} (le : α → α → Bool) :
    ∀ (l : List α) (c : α) (r : List α),
      popMinBy le l = some (c, r) → l.Perm (c :: r) := by
  intro l
  induction l with
  | nil => intro c r h; simp [popMinBy] at h
  | cons x xs ih =>
    intro c r h
    unfold popMinBy at h
    cases hxs : popMinBy le xs with
    | none =>
      rw [hxs] at h
      dsimp only at h
      simp only [Option.some.injEq, Prod.mk.injEq] at h
      obtain ⟨h1, h2⟩ := h
      subst h1; subst h2
      cases xs with
      | nil => exact List.Perm.refl _
      | cons y ys =>
        exfalso
        unfold popMinBy at hxs
        cases hys : popMinBy le ys with
        | none => rw [hys] at hxs; simp at hxs
        | some pr =>
          obtain ⟨m, rest⟩ := pr
          rw [hys] at hxs
          dsimp only at hxs
          by_cases hle : le y m <;> simp [hle] at hxs
    | some pr =>
      obtain ⟨m, rest⟩ := pr
      rw [hxs] at h
      dsimp only at h
      by_cases hle : le x m
      · rw [if_pos hle] at h
        simp only [Option.some.injEq, Prod.mk.injEq] at h
        obtain ⟨h1, h2⟩ := h
        subst h1; subst h2
        exact List.Perm.refl _
      · rw [if_neg hle] at h
        simp only [Option.some.injEq, Prod.mk.injEq] at h
        obtain ⟨h1, h2⟩ := h
        subst h1; subst h2
        have hperm := ih m rest hxs
        exact (hperm.cons x).trans (List.Perm.swap m x rest)

theorem popMinNode_perm (l : List AStarNode) (c : AStarNode)
    (r : List AStarNode) (h : popMinNode l = some (c, r)) : l.Perm (c :: r) :=
  popMinBy_perm nodeKeyLe l c r h

theorem generate_children_spec (m : GridMap) (h : Vertex → Nat)
    (curr : AStarNode) (ct : ConstraintTable) (n : AStarNode)
    (hn : n ∈ generate_children m h curr ct) :
    ∃ nl, n = .child nl (curr.g_val + 1) (h nl) curr (curr.timestep + 1) ∧
      moveOk ct curr.loc nl (curr.timestep + 1) := by
  unfold generate_children at hn
  dsimp only at hn
  cases hfind : (m.get_neighbours curr.loc ++ [curr.loc]).find? (fun next_loc =>
      ct.is_positively_constrained curr.loc next_loc (curr.timestep + 1)) with
  | some nl =>
    rw [hfind] at hn
    simp only [List.mem_singleton] at hn
    exact ⟨nl, hn, Or.inl (by simpa using List.find?_some hfind)⟩
  | none =>
    rw [hfind] at hn
    simp only [List.mem_map, List.mem_filter] at hn
    obtain ⟨nl, ⟨_, hneg⟩, heq⟩ := hn
    exact ⟨nl, heq.symm, Or.inr (by simpa using hneg)⟩

theorem a_starLoop_sound (m : GridMap) (h : Vertex → Nat) (goal : Vertex)
    (ct : ConstraintTable) (start : Vertex) :
    ∀ fuel (openl : List AStarNode) closed (p : Path),
      (∀ n ∈ openl, nodeOk ct start n) →
      a_starLoop m h goal ct fuel openl closed = some (some p) →
      ∃ n, nodeOk ct start n ∧ solution_found n goal ct = some p := by
  intro fuel
  induction fuel with
  | zero => intro openl closed p _ hres; simp [a_starLoop] at hres
  | succ fuel ih =>
    intro openl closed p hinv hres
    unfold a_starLoop at hres
    cases hpop : popMinNode openl with
    | none => rw [hpop] at hres; simp at hres
    | some pr =>
      obtain ⟨curr, rest⟩ := pr
      rw [hpop] at hres
      have hperm := popMinNode_perm openl curr rest hpop
      have hcurr : nodeOk ct start curr :=
        hinv curr (hperm.mem_iff.mpr (List.mem_cons_self _ _))
      have hrest : ∀ n ∈ rest, nodeOk ct start n := fun n hn =>
        hinv n (hperm.mem_iff.mpr (List.mem_cons_of_mem _ hn))
      dsimp only at hres
      split at hres
      · exact ih rest closed p hrest hres
      · split at hres
        next path hsol =>
          simp only [Option.some.injEq] at hres
          exact ⟨curr, hcurr, by rw [hsol, hres]⟩
        next hsol =>
          refine ih _ _ p ?_ hres
          intro n hn
          rcases List.mem_append.mp hn with hn | hn
          · exact hrest n hn
          · obtain ⟨nl, heq, hmv⟩ := generate_children_spec m h curr ct n hn
            subst heq
            exact ⟨rfl, hmv, hcurr⟩

theorem solution_found_eq_some (curr : AStarNode) (goal_loc : Vertex)
    (ct : ConstraintTable) (p : Path) :
    solution_found curr goal_loc ct = some p ↔
      curr.loc = goal_loc ∧
      (∀ e ∈ ct.negative_entries, curr.timestep < e.1 → e.2 ≠ [goal_loc]) ∧
      p = get_path curr := by
  unfold solution_found
  by_cases hloc : curr.loc = goal_loc
  · rw [if_neg (by simpa using hloc)]
    by_cases hfut : ct.negative_entries.any
        (fun e => decide (curr.timestep < e.1) && e.2 == [goal_loc])
    · rw [if_pos hfut]
      simp only [List.any_eq_true, Bool.and_eq_true, decide_eq_true_eq,
        beq_iff_eq] at hfut
      obtain ⟨e, he, h1, h2⟩ := hfut
      constructor
      · intro hcontra; exact absurd hcontra (by simp)
      · rintro ⟨_, hall, _⟩
        exact absurd h2 (hall e he h1)
    · rw [if_neg hfut]
      simp only [List.any_eq_true, Bool.and_eq_true, decide_eq_true_eq,
        beq_iff_eq, not_exists, not_and] at hfut
      constructor
      · intro hsome
        simp only [Option.some.injEq] at hsome
        exact ⟨hloc, fun e he ht => hfut e he ht, hsome.symm⟩
      · rintro ⟨_, _, hp⟩
        rw [hp]
  · rw [if_pos (by simpa using hloc)]
    constructor
    · intro hcontra; exact absurd hcontra (by simp)
    · rintro ⟨h1, _, _⟩; exact absurd h1 hloc

theorem get_path_ne_nil (n : AStarNode) : get_path n ≠ [] := by
  cases n <;> simp [get_path]

theorem get_path_last (n : AStarNode) : (get_path n).getLastD (0, 0) = n.loc := by
  cases n with
  | root l g h t => simp [get_path, AStarNode.loc]
  | child l g h p t =>
    simp only [get_path, AStarNode.loc, List.getLastD_eq_getLast?,
      List.getLast?_append, List.getLast?_singleton, Option.or_some,
      Option.getD_some]

theorem get_path_length (ct : ConstraintTable) (start : Vertex) :
    ∀ n : AStarNode, nodeOk ct start n → (get_path n).length = n.timestep + 1 := by
  intro n
  induction n with
  | root l g h t =>
    intro hok
    simp [get_path, AStarNode.timestep, hok.2]
  | child l g h p t ihp =>
    intro hok
    obtain ⟨ht, _, hpok⟩ := hok
    simp [get_path, AStarNode.timestep, ihp hpok, ht]

theorem get_location_append_lt (q : Path) (l : Vertex) {t : Nat}
    (h : t < q.length) : get_location (q ++ [l]) t = get_location q t := by
  unfold get_location
  rw [if_pos (by simp; omega), if_pos h]
  rw [List.getD_append _ _ _ _ h]

theorem get_location_append_len (q : Path) (l : Vertex) :
    get_location (q ++ [l]) q.length = l := by
  unfold get_location
  rw [if_pos (by simp)]
  rw [List.getD_append_right q [l] (0, 0) q.length (le_refl _)]
  simp

theorem get_path_head (ct : ConstraintTable) (start : Vertex) :
    ∀ n : AStarNode, nodeOk ct start n → get_location (get_path n) 0 = start := by
  intro n
  induction n with
  | root l g h t =>
    intro hok
    simp [get_path, get_location, hok.1]
  | child l g h p t ihp =>
    intro hok
    obtain ⟨_, _, hpok⟩ := hok
    have hlen : 0 < (get_path p).length :=
      List.length_pos.mpr (get_path_ne_nil p)
    rw [get_path, get_location_append_lt _ _ hlen]
    exact ihp hpok

theorem get_path_steps (ct : ConstraintTable) (start : Vertex) :
    ∀ n : AStarNode, nodeOk ct start n →
      ∀ t, 1 ≤ t → t ≤ n.timestep →
        moveOk ct (get_location (get_path n) (t - 1))
          (get_location (get_path n) t) t := by
  intro n
  induction n with
  | root l g h t0 =>
    intro hok t h1 h2
    have h2' : t ≤ t0 := h2
    rw [hok.2] at h2'
    omega
  | child l g h p t0 ihp =>
    intro hok t h1 h2
    obtain ⟨ht, hmv, hpok⟩ := hok
    have hts : t0 = p.timestep + 1 := ht
    have hlenp : (get_path p).length = p.timestep + 1 :=
      get_path_length ct start p hpok
    have h2' : t ≤ p.timestep + 1 := by
      rw [AStarNode.timestep] at h2; omega
    rw [get_path]
    by_cases hcase : t ≤ p.timestep
    · rw [get_location_append_lt _ _ (t := t - 1) (by omega),
        get_location_append_lt _ _ (t := t) (by omega)]
      exact ihp hpok t h1 hcase
    · have hteq : t = p.timestep + 1 := by omega
      have e1 : get_location (get_path p ++ [l]) (t - 1) = p.loc := by
        rw [get_location_append_lt _ _ (t := t - 1) (by omega)]
        rw [get_location_of_last (get_path p) (by omega)]
        exact get_path_last p
      have e2 : get_location (get_path p ++ [l]) t = l := by
        have : t = (get_path p).length := by omega
        rw [this, get_location_append_len]
      rw [e1, e2, hteq, ← hts]
      exact hmv

/-- Everything the A* loop guarantees about a returned path: it is the
parent chain of an accepted node, so it starts at the start, ends at the
goal, every arriving move was admitted by `generate_children`, and the
goal-acceptance check saw no future negative vertex constraint on the
goal. -/
theorem a_star_path_spec (grid_map : GridMap) (start_loc goal_loc : Vertex)
    (h_values : Vertex → Nat) (agent : Nat) (constraints : List Constraint)
    (fuel : Nat) (p : Path)
    (hres : a_star grid_map start_loc goal_loc h_values agent constraints fuel =
      some (some p)) :
    p ≠ [] ∧ get_location p 0 = start_loc ∧ p.getLastD (0, 0) = goal_loc ∧
    (∀ t, 1 ≤ t → t < p.length →
      moveOk (ConstraintTable.ofConstraints constraints agent)
        (get_location p (t - 1)) (get_location p t) t) ∧
    (∀ e ∈ (ConstraintTable.ofConstraints constraints agent).negative_entries,
      p.length - 1 < e.1 → e.2 ≠ [goal_loc]) := by
  unfold a_star at hres
  set ct := ConstraintTable.ofConstraints constraints agent with hct
  have hrootok : nodeOk ct start_loc
      (.root start_loc 0 (h_values start_loc) 0) := ⟨rfl, rfl⟩
  obtain ⟨n, hok, hsol⟩ := a_starLoop_sound grid_map h_values goal_loc ct
    start_loc fuel [.root start_loc 0 (h_values start_loc) 0] [] p
    (by intro n hn; simp only [List.mem_singleton] at hn; rw [hn]; exact hrootok)
    hres
  rw [solution_found_eq_some] at hsol
  obtain ⟨hgoal, hfut, hp⟩ := hsol
  subst hp
  have hlen : (get_path n).length = n.timestep + 1 := get_path_length ct start_loc n hok
  refine ⟨get_path_ne_nil n, get_path_head ct start_loc n hok, ?_, ?_, ?_⟩
  · rw [get_path_last n, hgoal]
  · intro t h1 h2
    exact get_path_steps ct start_loc n hok t h1 (by omega)
  · intro e he hlt
    exact hfut e he (by omega)

theorem posContains_false_of_no_positive (cs : List Constraint) (agent : Nat)
    (hnp : ∀ c ∈ cs, c.agent = agent → c.is_positive_constraint = false) :
    ∀ t loc, (ConstraintTable.ofConstraints cs agent).posContains t loc = false := by
  intro t loc
  rw [Bool.eq_false_iff]
  intro hcontra
  rw [posContains_iff] at hcontra
  obtain ⟨c, hc, hag, hpos, _, _⟩ := hcontra
  rw [hnp c hc hag] at hpos
  exact Bool.false_ne_true hpos

theorem is_pos_false_of_no_positive (cs : List Constraint) (agent : Nat)
    (hnp : ∀ c ∈ cs, c.agent = agent → c.is_positive_constraint = false) :
    ∀ u v t, (ConstraintTable.ofConstraints cs agent).is_positively_constrained
      u v t = false := by
  intro u v t
  unfold ConstraintTable.is_positively_constrained
  rw [posContains_false_of_no_positive cs agent hnp,
    posContains_false_of_no_positive cs agent hnp]
  rfl

theorem negContains_congr (cs1 cs2 : List Constraint) (agent : Nat)
    (hmem : ∀ c, c ∈ cs1 ↔ c ∈ cs2) (t : Nat) (loc : List Vertex) :
    (ConstraintTable.ofConstraints cs1 agent).negContains t loc =
    (ConstraintTable.ofConstraints cs2 agent).negContains t loc := by
  rw [Bool.eq_iff_iff, negContains_iff, negContains_iff]
  constructor <;> rintro ⟨c, hc, hm⟩
  · exact ⟨c, (hmem c).mp hc, hm⟩
  · exact ⟨c, (hmem c).mpr hc, hm⟩

theorem posContains_congr (cs1 cs2 : List Constraint) (agent : Nat)
    (hmem : ∀ c, c ∈ cs1 ↔ c ∈ cs2) (t : Nat) (loc : List Vertex) :
    (ConstraintTable.ofConstraints cs1 agent).posContains t loc =
    (ConstraintTable.ofConstraints cs2 agent).posContains t loc := by
  rw [Bool.eq_iff_iff, posContains_iff, posContains_iff]
  constructor <;> rintro ⟨c, hc, hm⟩
  · exact ⟨c, (hmem c).mp hc, hm⟩
  · exact ⟨c, (hmem c).mpr hc, hm⟩

theorem is_neg_congr (cs1 cs2 : List Constraint) (agent : Nat)
    (hmem : ∀ c, c ∈ cs1 ↔ c ∈ cs2) (u v : Vertex) (t : Nat) :
    (ConstraintTable.ofConstraints cs1 agent).is_negatively_constrained u v t =
    (ConstraintTable.ofConstraints cs2 agent).is_negatively_constrained u v t := by
  unfold ConstraintTable.is_negatively_constrained
  rw [negContains_congr cs1 cs2 agent hmem, negContains_congr cs1 cs2 agent hmem]

theorem is_pos_congr (cs1 cs2 : List Constraint) (agent : Nat)
    (hmem : ∀ c, c ∈ cs1 ↔ c ∈ cs2) (u v : Vertex) (t : Nat) :
    (ConstraintTable.ofConstraints cs1 agent).is_positively_constrained u v t =
    (ConstraintTable.ofConstraints cs2 agent).is_positively_constrained u v t := by
  unfold ConstraintTable.is_positively_constrained
  rw [posContains_congr cs1 cs2 agent hmem, posContains_congr cs1 cs2 agent hmem]

theorem generate_children_congr (m : GridMap) (h : Vertex → Nat)
    (curr : AStarNode) (ct1 ct2 : ConstraintTable)
    (hp : ∀ u v t, ct1.is_positively_constrained u v t =
      ct2.is_positively_constrained u v t)
    (hn : ∀ u v t, ct1.is_negatively_constrained u v t =
      ct2.is_negatively_constrained u v t) :
    generate_children m h curr ct1 = generate_children m h curr ct2 := by
  simp only [generate_children, hp, hn]

theorem solution_found_congr (goal_loc : Vertex) (cs1 cs2 : List Constraint)
    (agent : Nat) (hmem : ∀ c, c ∈ cs1 ↔ c ∈ cs2) (curr : AStarNode) :
    solution_found curr goal_loc (ConstraintTable.ofConstraints cs1 agent) =
    solution_found curr goal_loc (ConstraintTable.ofConstraints cs2 agent) := by
  unfold solution_found
  have hany : (ConstraintTable.ofConstraints cs1 agent).negative_entries.any
        (fun e => decide (curr.timestep < e.1) && e.2 == [goal_loc]) =
      (ConstraintTable.ofConstraints cs2 agent).negative_entries.any
        (fun e => decide (curr.timestep < e.1) && e.2 == [goal_loc]) := by
    rw [Bool.eq_iff_iff]
    simp only [List.any_eq_true]
    constructor <;> rintro ⟨e, he, hcond⟩
    · rw [mem_negEntries_iff] at he
      obtain ⟨c, hc, hm⟩ := he
      refine ⟨e, ?_, hcond⟩
      rw [mem_negEntries_iff]
      exact ⟨c, (hmem c).mp hc, hm⟩
    · rw [mem_negEntries_iff] at he
      obtain ⟨c, hc, hm⟩ := he
      refine ⟨e, ?_, hcond⟩
      rw [mem_negEntries_iff]
      exact ⟨c, (hmem c).mpr hc, hm⟩
  rw [hany]

theorem a_starLoop_congr (m : GridMap) (h : Vertex → Nat) (goal_loc : Vertex)
    (ct1 ct2 : ConstraintTable)
    (hgc : ∀ curr, generate_children m h curr ct1 = generate_children m h curr ct2)
    (hsf : ∀ curr, solution_found curr goal_loc ct1 = solution_found curr goal_loc ct2) :
    ∀ fuel openl closed,
      a_starLoop m h goal_loc ct1 fuel openl closed =
      a_starLoop m h goal_loc ct2 fuel openl closed := by
  intro fuel
  induction fuel with
  | zero => intro openl closed; rfl
  | succ fuel ih =>
    intro openl closed
    unfold a_starLoop
    cases popMinNode openl with
    | none => rfl
    | some pr =>
      obtain ⟨curr, rest⟩ := pr
      dsimp only
      refine if_congr Iff.rfl (ih rest closed) ?_
      rw [hsf curr]
      cases solution_found curr goal_loc ct2 with
      | some path => rfl
      | none => rw [hgc curr]; exact ih _ _

/-- `a_star` is a function of the constraint *set*: two constraint lists
with the same members give identical results. -/
theorem a_star_mem_congr (grid_map : GridMap) (start_loc goal_loc : Vertex)
    (h_values : Vertex → Nat) (agent : Nat) (cs1 cs2 : List Constraint)
    (hmem : ∀ c, c ∈ cs1 ↔ c ∈ cs2) (fuel : Nat) :
    a_star grid_map start_loc goal_loc h_values agent cs1 fuel =
    a_star grid_map start_loc goal_loc h_values agent cs2 fuel := by
  unfold a_star
  exact a_starLoop_congr grid_map h_values goal_loc _ _
    (fun curr => generate_children_congr grid_map h_values curr _ _
      (is_pos_congr cs1 cs2 agent hmem) (is_neg_congr cs1 cs2 agent hmem))
    (solution_found_congr goal_loc cs1 cs2 agent hmem) fuel _ _

theorem mem_get_neighbours (m : GridMap) (v n : Vertex) :
    n ∈ m.get_neighbours v ↔
      m.is_free n = true ∧ ∃ d ∈ DIRECTIONS, n = (v.1 + d.1, v.2 + d.2) := by
  unfold GridMap.get_neighbours
  rw [List.mem_filterMap]
  constructor
  · rintro ⟨d, hd, hsome⟩
    dsimp only at hsome
    by_cases hfree : m.is_free (v.1 + d.1, v.2 + d.2) = true
    · rw [if_pos hfree] at hsome
      simp only [Option.some.injEq] at hsome
      subst hsome
      exact ⟨hfree, d, hd, rfl⟩
    · rw [if_neg hfree] at hsome
      exact absurd hsome (by simp)
  · rintro ⟨hfree, d, hd, heq⟩
    subst heq
    exact ⟨d, hd, by rw [if_pos hfree]⟩

theorem directions_symm {d : Int × Int} (hd : d ∈ DIRECTIONS) :
    (-d.1, -d.2) ∈ DIRECTIONS := by
  fin_cases hd <;> decide

theorem codeWalk_free (m : GridMap) (g : Vertex) :
    ∀ v k, CodeWalk m g v k → v = g ∨ m.is_free v = true := by
  intro v k hw
  induction hw with
  | base => exact Or.inl rfl
  | step _ hmem _ =>
    exact Or.inr ((mem_get_neighbours m _ _).mp hmem).1

theorem codeWalk_to_freePath (m : GridMap) (g : Vertex)
    (hg : m.is_free g = true) :
    ∀ v k, CodeWalk m g v k → FreePath m v g k := by
  intro v k hw
  induction hw with
  | base => exact FreePath.base g
  | step hw hmem ih =>
    rename_i v' n k'
    obtain ⟨hfree, d, hd, heq⟩ := (mem_get_neighbours m _ _).mp hmem
    have hvfree : m.is_free v' = true := by
      rcases codeWalk_free m g v' k' hw with h | h
      · rw [h]; exact hg
      · exact h
    refine FreePath.step ⟨hfree, hvfree, (-d.1, -d.2), directions_symm hd, ?_⟩ ih
    subst heq
    simp

theorem freePath_to_codeWalk (m : GridMap) (g : Vertex) :
    ∀ v k, FreePath m v g k → CodeWalk m g v k := by
  intro v k hw
  induction hw with
  | base => exact CodeWalk.base
  | step hstep _ ih =>
    rename_i u v' w k'
    obtain ⟨hufree, hvfree, d, hd, heq⟩ := hstep
    refine CodeWalk.step ih ?_
    rw [mem_get_neighbours]
    refine ⟨hufree, (-d.1, -d.2), directions_symm hd, ?_⟩
    subst heq
    simp

theorem lookupAssoc_cons_self {α β : Type} [DecidableEq α] (k : α) (v : β)
    (l : List (α × β)) : lookupAssoc ((k, v) :: l) k = some v := by
  simp [lookupAssoc]

theorem lookupAssoc_cons_ne {α β : Type} [DecidableEq α] (k key : α) (v : β)
    (l : List (α × β)) (h : k ≠ key) :
    lookupAssoc ((k, v) :: l) key = lookupAssoc l key := by
  simp [lookupAssoc, h]

theorem relaxChildren_spec (cost : Nat) :
    ∀ (ns : List Vertex) (openl : List (Nat × Vertex))
      (closed : List (Vertex × Nat)),
      (∀ v d, lookupAssoc closed v = some d →
        ∃ d2, d2 ≤ d ∧
          lookupAssoc (relaxChildren cost ns (openl, closed)).2 v = some d2) ∧
      (∀ v d, lookupAssoc (relaxChildren cost ns (openl, closed)).2 v = some d →
        lookupAssoc closed v = some d ∨
          (d = cost + 1 ∧ v ∈ ns ∧
            (cost + 1, v) ∈ (relaxChildren cost ns (openl, closed)).1)) ∧
      (∀ n ∈ ns, ∃ dn, dn ≤ cost + 1 ∧
        lookupAssoc (relaxChildren cost ns (openl, closed)).2 n = some dn) ∧
      (∀ e ∈ openl, e ∈ (relaxChildren cost ns (openl, closed)).1) ∧
      (∀ e ∈ (relaxChildren cost ns (openl, closed)).1,
        e ∈ openl ∨ (e.1 = cost + 1 ∧ e.2 ∈ ns)) := by
  intro ns
  induction ns with
  | nil =>
    intro openl closed
    simp only [relaxChildren]
    exact ⟨fun v d h => ⟨d, le_refl d, h⟩,
           fun v d h => Or.inl h,
           by simp,
           fun e he => he,
           fun e he => Or.inl he⟩
  | cons n ns ih =>
    intro openl closed
    show _ ∧ _ ∧ _ ∧ _ ∧ _
    unfold relaxChildren
    dsimp only
    cases hl : lookupAssoc closed n with
    | some old =>
      dsimp only
      by_cases hlt : cost + 1 < old
      · rw [if_pos hlt]
        obtain ⟨ih1, ih2, ih3, ih4, ih5⟩ :=
          ih (openl ++ [(cost + 1, n)]) ((n, cost + 1) :: closed)
        refine ⟨?_, ?_, ?_, ?_, ?_⟩
        · intro v d hv
          by_cases hvn : v = n
          · subst hvn
            obtain ⟨d2, hd2, hlk⟩ := ih1 v (cost + 1) (lookupAssoc_cons_self v _ _)
            rw [hl] at hv
            have : d = old := by injection hv with h; omega
            exact ⟨d2, by omega, hlk⟩
          · obtain ⟨d2, hd2, hlk⟩ := ih1 v d
              (by rw [lookupAssoc_cons_ne n v _ _ (fun h => hvn h.symm)]; exact hv)
            exact ⟨d2, hd2, hlk⟩
        · intro v d hv
          rcases ih2 v d hv with hleft | ⟨hd, hvmem, hopen⟩
          · by_cases hvn : v = n
            · subst hvn
              rw [lookupAssoc_cons_self] at hleft
              have hd : d = cost + 1 := by injection hleft; omega
              refine Or.inr ⟨hd, List.mem_cons_self _ _, ?_⟩
              subst hd
              exact ih4 _ (by simp)
            · rw [lookupAssoc_cons_ne n v _ _ (fun h => hvn h.symm)] at hleft
              exact Or.inl hleft
          · exact Or.inr ⟨hd, List.mem_cons_of_mem _ hvmem, hopen⟩
        · intro n' hn'
          rcases List.mem_cons.mp hn' with hn' | hn'
          · subst hn'
            obtain ⟨d2, hd2, hlk⟩ := ih1 n' (cost + 1) (lookupAssoc_cons_self n' _ _)
            exact ⟨d2, hd2, hlk⟩
          · exact ih3 n' hn'
        · intro e he
          exact ih4 e (List.mem_append_left _ he)
        · intro e he
          rcases ih5 e he with hleft | ⟨h1, h2⟩
          · rcases List.mem_append.mp hleft with h | h
            · exact Or.inl h
            · simp only [List.mem_singleton] at h
              subst h
              exact Or.inr ⟨rfl, List.mem_cons_self _ _⟩
          · exact Or.inr ⟨h1, List.mem_cons_of_mem _ h2⟩
      · rw [if_neg hlt]
        obtain ⟨ih1, ih2, ih3, ih4, ih5⟩ := ih openl closed
        refine ⟨ih1, ?_, ?_, ih4, ?_⟩
        · intro v d hv
          rcases ih2 v d hv with hleft | ⟨hd, hvmem, hopen⟩
          · exact Or.inl hleft
          · exact Or.inr ⟨hd, List.mem_cons_of_mem _ hvmem, hopen⟩
        · intro n' hn'
          rcases List.mem_cons.mp hn' with hn' | hn'
          · subst hn'
            obtain ⟨d2, hd2, hlk⟩ := ih1 n' old hl
            exact ⟨d2, by omega, hlk⟩
          · exact ih3 n' hn'
        · intro e he
          rcases ih5 e he with h | ⟨h1, h2⟩
          · exact Or.inl h
          · exact Or.inr ⟨h1, List.mem_cons_of_mem _ h2⟩
    | none =>
      dsimp only
      obtain ⟨ih1, ih2, ih3, ih4, ih5⟩ :=
        ih (openl ++ [(cost + 1, n)]) ((n, cost + 1) :: closed)
      refine ⟨?_, ?_, ?_, ?_, ?_⟩
      · intro v d hv
        by_cases hvn : v = n
        · subst hvn
          rw [hl] at hv
          exact absurd hv (by simp)
        · obtain ⟨d2, hd2, hlk⟩ := ih1 v d
            (by rw [lookupAssoc_cons_ne n v _ _ (fun h => hvn h.symm)]; exact hv)
          exact ⟨d2, hd2, hlk⟩
      · intro v d hv
        rcases ih2 v d hv with hleft | ⟨hd, hvmem, hopen⟩
        · by_cases hvn : v = n
          · subst hvn
            rw [lookupAssoc_cons_self] at hleft
            have hd : d = cost + 1 := by injection hleft; omega
            refine Or.inr ⟨hd, List.mem_cons_self _ _, ?_⟩
            subst hd
            exact ih4 _ (by simp)
          · rw [lookupAssoc_cons_ne n v _ _ (fun h => hvn h.symm)] at hleft
            exact Or.inl hleft
        · exact Or.inr ⟨hd, List.mem_cons_of_mem _ hvmem, hopen⟩
      · intro n' hn'
        rcases List.mem_cons.mp hn' with hn' | hn'
        · subst hn'
          obtain ⟨d2, hd2, hlk⟩ := ih1 n' (cost + 1) (lookupAssoc_cons_self n' _ _)
          exact ⟨d2, hd2, hlk⟩
        · exact ih3 n' hn'
      · intro e he
        exact ih4 e (List.mem_append_left _ he)
      · intro e he
        rcases ih5 e he with hleft | ⟨h1, h2⟩
        · rcases List.mem_append.mp hleft with h | h
          · exact Or.inl h
          · simp only [List.mem_singleton] at h
            subst h
            exact Or.inr ⟨rfl, List.mem_cons_self _ _⟩
        · exact Or.inr ⟨h1, List.mem_cons_of_mem _ h2⟩

theorem popMinBy_eq_none {α : Type} (le : α → α → Bool) :
    ∀ l : List α, popMinBy le l = none → l = [] := by
  intro l h
  cases l with
  | nil => rfl
  | cons x xs =>
    exfalso
    unfold popMinBy at h
    cases hxs : popMinBy le xs with
    | none => rw [hxs] at h; simp at h
    | some pr =>
      obtain ⟨m, r⟩ := pr
      rw [hxs] at h
      dsimp only at h
      by_cases hle : le x m <;> simp [hle] at h

theorem dijkstraLoop_final (m : GridMap) (g : Vertex) :
    ∀ fuel openl closed D,
      DijkstraInv m g openl closed →
      dijkstraLoop m fuel openl closed = some D →
      lookupAssoc D g = some 0 ∧
      (∀ v d, lookupAssoc D v = some d → CodeWalk m g v d) ∧
      (∀ v d, lookupAssoc D v = some d → ∀ n ∈ m.get_neighbours v,
        ∃ dn, lookupAssoc D n = some dn ∧ dn ≤ d + 1) := by
  intro fuel
  induction fuel with
  | zero => intro _ _ _ _ h; simp [dijkstraLoop] at h
  | succ fuel ih =>
    intro openl closed D hinv hres
    unfold dijkstraLoop at hres
    cases hpop : popMinBy heurKeyLe openl with
    | none =>
      rw [hpop] at hres
      simp only [Option.some.injEq] at hres
      subst hres
      have hempty := popMinBy_eq_none _ _ hpop
      refine ⟨hinv.goal0, hinv.sound, ?_⟩
      intro v d hv n hn
      rcases hinv.tracked v d hv with hmem | hrel
      · rw [hempty] at hmem; exact absurd hmem (List.not_mem_nil _)
      · exact hrel n hn
    | some pr =>
      obtain ⟨⟨cost, loc⟩, rest⟩ := pr
      rw [hpop] at hres
      dsimp only at hres
      have hperm := popMinBy_perm heurKeyLe openl _ _ hpop
      obtain ⟨hwalk, b, hb, hble⟩ : CodeWalk m g loc cost ∧
          ∃ b, lookupAssoc closed loc = some b ∧ b ≤ cost := by
        have := hinv.openInv (cost, loc) (hperm.mem_iff.mpr (List.mem_cons_self _ _))
        simpa using this
      have hrestmem : ∀ e ∈ rest, e ∈ openl := fun e he =>
        hperm.mem_iff.mpr (List.mem_cons_of_mem _ he)
      rw [hb] at hres
      dsimp only at hres
      by_cases hbc : b < cost
      · rw [if_pos (by simpa using hbc)] at hres
        refine ih rest closed D ⟨hinv.goal0, hinv.sound, ?_, ?_⟩ hres
        · intro e he
          exact hinv.openInv e (hrestmem e he)
        · intro v d hv
          rcases hinv.tracked v d hv with hmem | hrel
          · rcases List.mem_cons.mp (hperm.mem_iff.mp hmem) with heq | hmem'
            · exfalso
              have hvloc : v = loc := congrArg Prod.snd heq
              have hdcost : d = cost := congrArg Prod.fst heq
              subst hvloc
              rw [hb] at hv
              have : b = d := Option.some.inj hv
              omega
            · exact Or.inl hmem'
          · exact Or.inr hrel
      · rw [if_neg (by simpa using hbc)] at hres
        have hbeq : b = cost := by omega
        subst hbeq
        obtain ⟨r1, r2, r3, r4, r5⟩ :=
          relaxChildren_spec b (m.get_neighbours loc) rest closed
        refine ih _ _ D ⟨?_, ?_, ?_, ?_⟩ hres
        · obtain ⟨d2, hd2, hlk⟩ := r1 g 0 hinv.goal0
          have : d2 = 0 := by omega
          subst this
          exact hlk
        · intro v d hv
          rcases r2 v d hv with hleft | ⟨hd, hvmem, _⟩
          · exact hinv.sound v d hleft
          · subst hd
            exact CodeWalk.step hwalk hvmem
        · intro e he
          rcases r5 e he with hleft | ⟨h1, h2⟩
          · obtain ⟨hwalke, d, hd, hdle⟩ := hinv.openInv e (hrestmem e hleft)
            obtain ⟨d2, hd2, hlk2⟩ := r1 e.2 d hd
            exact ⟨hwalke, d2, hlk2, by omega⟩
          · refine ⟨?_, ?_⟩
            · rw [h1]
              exact CodeWalk.step hwalk h2
            · obtain ⟨dn, hdn, hlkn⟩ := r3 e.2 h2
              exact ⟨dn, hlkn, by omega⟩
        · intro v d hv
          rcases r2 v d hv with hleft | ⟨hd, _, hopen⟩
          · rcases hinv.tracked v d hleft with hmem | hrel
            · rcases List.mem_cons.mp (hperm.mem_iff.mp hmem) with heq | hmem'
              · have hvloc : v = loc := congrArg Prod.snd heq
                have hdcost : d = b := congrArg Prod.fst heq
                subst hvloc; subst hdcost
                refine Or.inr ?_
                intro n hn
                obtain ⟨dn, hdnle, hlkn⟩ := r3 n hn
                exact ⟨dn, hlkn, by omega⟩
              · exact Or.inl (r4 _ hmem')
            · refine Or.inr ?_
              intro n hn
              obtain ⟨dn, hlkn, hdnle⟩ := hrel n hn
              obtain ⟨dn2, hdn2, hlkn2⟩ := r1 n dn hlkn
              exact ⟨dn2, hlkn2, by omega⟩
          · subst hd
            exact Or.inl hopen

theorem dijkstra_upper (m : GridMap) (g : Vertex) (D : List (Vertex × Nat))
    (hgoal : lookupAssoc D g = some 0)
    (hrel : ∀ v d, lookupAssoc D v = some d → ∀ n ∈ m.get_neighbours v,
      ∃ dn, lookupAssoc D n = some dn ∧ dn ≤ d + 1) :
    ∀ v k, CodeWalk m g v k → ∃ d, lookupAssoc D v = some d ∧ d ≤ k := by
  intro v k hw
  induction hw with
  | base => exact ⟨0, hgoal, le_refl 0⟩
  | step hw hmem ihw =>
    obtain ⟨d, hd, hdk⟩ := ihw
    obtain ⟨dn, hdn, hdnle⟩ := hrel _ d hd _ hmem
    exact ⟨dn, hdn, by omega⟩

/-- Full characterisation of the Dijkstra heuristic table in terms of the
walks the code explores: the stored value is the least walk length, and a
vertex is stored iff some walk reaches it. -/
theorem compute_heuristics_spec (m : GridMap) (g : Vertex) (fuel : Nat)
    (D : List (Vertex × Nat)) (hres : m.compute_heuristics g fuel = some D) :
    lookupAssoc D g = some 0 ∧
    (∀ v d, lookupAssoc D v = some d →
      CodeWalk m g v d ∧ ∀ k, CodeWalk m g v k → d ≤ k) ∧
    (∀ v k, CodeWalk m g v k → ∃ d, lookupAssoc D v = some d) := by
  unfold GridMap.compute_heuristics at hres
  have hinv : DijkstraInv m g [(0, g)] [(g, 0)] := by
    refine ⟨by simp [lookupAssoc], ?_, ?_, ?_⟩
    · intro v d hv
      unfold lookupAssoc at hv
      by_cases hvg : g = v
      · subst hvg
        rw [if_pos rfl] at hv
        have : d = 0 := by injection hv with h; omega
        subst this
        exact CodeWalk.base
      · rw [if_neg hvg] at hv
        exact absurd hv (by simp [lookupAssoc])
    · intro e he
      simp only [List.mem_singleton] at he
      subst he
      exact ⟨CodeWalk.base, 0, by simp [lookupAssoc], le_refl 0⟩
    · intro v d hv
      unfold lookupAssoc at hv
      by_cases hvg : g = v
      · subst hvg
        rw [if_pos rfl] at hv
        have : d = 0 := by injection hv with h; omega
        subst this
        exact Or.inl (List.mem_singleton.mpr rfl)
      · rw [if_neg hvg] at hv
        exact absurd hv (by simp [lookupAssoc])
  obtain ⟨h0, hsound, hrel⟩ := dijkstraLoop_final m g fuel _ _ D hinv hres
  refine ⟨h0, ?_, ?_⟩
  · intro v d hv
    refine ⟨hsound v d hv, ?_⟩
    intro k hk
    obtain ⟨d2, hd2, hd2k⟩ := dijkstra_upper m g D h0 hrel v k hk
    rw [hv] at hd2
    have : d = d2 := Option.some.inj hd2
    omega
  · intro v k hk
    obtain ⟨d2, hd2, _⟩ := dijkstra_upper m g D h0 hrel v k hk
    exact ⟨d2, hd2⟩

/-- C1 (counterexample): on the 1×1 instance whose two agents share start
and goal `(0, 0)` (standard splitting), `find_solution` exhausts its open
list after four expansions and returns the root's paths, which have a
vertex collision at timestep 0 (and at every other timestep).  This
refutes the claim that the open-list-exhaustion return is also free of
vertex collisions. -/
theorem C1_find_solution_counterexample :
    find_solution ⟨[[false]]⟩ [(0, 0), (0, 0)] [(0, 0), (0, 0)] false
        (fun _ => 0) 10 10 10 = some (.ok [[(0, 0)], [(0, 0)]]) ∧
    vertexCollAt [(0, 0)] [(0, 0)] 0 := by
  constructor
  · rfl
  · decide

/-- C1 (amended): any family of nonempty paths on which `detect_collisions`
reports no collision — which is exactly the condition under which the
conflict-free-node branch of `find_solution` returns — has no vertex
collision between any two distinct agents at any timestep, including while
waiting at goals.  (The open-list-exhaustion branch instead returns the
root's paths, which may collide; see the counterexample.) -/
theorem C1_conflict_free_return_no_vertex_collisions (paths : List Path)
    (hne : ∀ p ∈ paths, p ≠ []) (hnil : detect_collisions paths = []) :
    ∀ i j, i < paths.length → j < paths.length → i ≠ j → ∀ t,
      get_location (paths.getD i []) t ≠ get_location (paths.getD j []) t := by
  have hmain : ∀ i j, i < j → j < paths.length → ∀ t,
      get_location (paths.getD i []) t ≠ get_location (paths.getD j []) t := by
    intro i j hij hj t
    have hnone := detect_collisions_eq_nil paths hnil i j hij hj
    have hinei : paths.getD i [] ≠ [] := by
      have : paths.getD i [] ∈ paths := by
        rw [List.getD_eq_getElem _ _ (by omega)]
        exact List.getElem_mem _
      exact hne _ this
    have hinej : paths.getD j [] ≠ [] := by
      have : paths.getD j [] ∈ paths := by
        rw [List.getD_eq_getElem _ _ hj]
        exact List.getElem_mem _
      exact hne _ this
    have := detect_collision_none i j _ _ hinei hinej hnone t
    intro hcontra
    exact this (Or.inl hcontra)
  intro i j hi hj hij t
  rcases Nat.lt_or_ge i j with h | h
  · exact hmain i j h hj t
  · have hlt : j < i := by omega
    intro hcontra
    exact hmain j i hlt hi t hcontra.symm

/-- C1 (witness): two disjoint single-vertex paths report no collision and
indeed never share a location. -/
theorem C1_witness :
    get_location ([[(0, 0)], [(1, 0)]].getD 0 []) 0 ≠
      get_location ([[(0, 0)], [(1, 0)]].getD 1 []) 0 :=
  C1_conflict_free_return_no_vertex_collisions [[(0, 0)], [(1, 0)]]
    (by decide) (by decide) 0 1 (by decide) (by decide) (by decide) 0

/-- C2 (counterexample): two runs of `a_star` refuting the claim.  First
run: a negative vertex constraint on the start at timestep 0 — `a_star`
never consults constraints at timestep 0, returns `[(0,0)]`, and that path
occupies the forbidden vertex at its timestep (so also, no satisfying path
exists yet `a_star` does not return `None`).  Second run: a positive vertex
constraint on `(0,0)` at timestep 2 — `a_star` accepts the goal at
timestep 1 and the returned path is at `(0,1)`, not `(0,0)`, at timestep 2,
so the positive constraint is not satisfied. -/
theorem C2_a_star_counterexample :
    (a_star ⟨[[false]]⟩ (0, 0) (0, 0) (fun _ => 0) 0
        [⟨0, [(0, 0)], 0, false⟩] 5 = some (some [(0, 0)]) ∧
      get_location [(0, 0)] 0 = (0, 0)) ∧
    (a_star ⟨[[false, false]]⟩ (0, 0) (0, 1) hTableB 0
        [⟨0, [(0, 0)], 2, true⟩] 10 = some (some [(0, 0), (0, 1)]) ∧
      get_location [(0, 0), (0, 1)] 2 ≠ (0, 0)) := by
  refine ⟨⟨rfl, by decide⟩, ⟨rfl, by decide⟩⟩

/-- C2 (amended): when the constraint set holds no positive constraints for
the planned agent, every path `a_star` returns satisfies each of the
agent's negative constraints with timestep ≥ 1: it does not occupy a
forbidden vertex at its timestep (including while waiting at the goal),
and it never traverses a forbidden directed edge `(u, v)` with `u ≠ v`.
Constraints at timestep 0 are never consulted, and both
positive-constraint satisfaction and the `None`-on-infeasibility direction
fail in general (see the counterexample). -/
theorem C2_a_star_negative_constraints (grid_map : GridMap)
    (start_loc goal_loc : Vertex) (h_values : Vertex → Nat) (agent : Nat)
    (constraints : List Constraint) (fuel : Nat) (p : Path)
    (hnp : ∀ c ∈ constraints, c.agent = agent →
      c.is_positive_constraint = false)
    (hres : a_star grid_map start_loc goal_loc h_values agent constraints
      fuel = some (some p)) :
    ∀ c ∈ constraints, c.agent = agent → 1 ≤ c.timestep →
      (∀ u, c.loc = [u] → get_location p c.timestep ≠ u) ∧
      (∀ u v, c.loc = [u, v] → u ≠ v →
        ¬ (get_location p (c.timestep - 1) = u ∧
           get_location p c.timestep = v)) := by
  obtain ⟨hpne, hhead, hlast, hsteps, hfut⟩ :=
    a_star_path_spec grid_map start_loc goal_loc h_values agent constraints
      fuel p hres
  have hlen : 1 ≤ p.length := List.length_pos.mpr hpne
  have hnegstep : ∀ t, 1 ≤ t → t < p.length →
      (ConstraintTable.ofConstraints constraints agent).is_negatively_constrained
        (get_location p (t - 1)) (get_location p t) t = false := by
    intro t h1 h2
    rcases hsteps t h1 h2 with hpos | hneg
    · rw [is_pos_false_of_no_positive constraints agent hnp] at hpos
      exact absurd hpos (by simp)
    · exact hneg
  intro c hc hag ht1
  constructor
  · intro u hu hcontra
    by_cases hin : c.timestep < p.length
    · have := hnegstep c.timestep ht1 hin
      unfold ConstraintTable.is_negatively_constrained at this
      rw [Bool.or_eq_false_iff] at this
      have hvc : (ConstraintTable.ofConstraints constraints agent).negContains
          c.timestep [get_location p c.timestep] = true := by
        rw [negContains_iff]
        exact ⟨c, hc, Or.inl ⟨hag, hnp c hc hag, rfl, by rw [hu, hcontra]⟩⟩
      rw [this.1] at hvc
      exact absurd hvc (by simp)
    · have hloc : get_location p c.timestep = goal_loc := by
        rw [get_location_of_last p (by omega), hlast]
      have hmem : (c.timestep, [goal_loc]) ∈
          (ConstraintTable.ofConstraints constraints agent).negative_entries := by
        rw [mem_negEntries_iff]
        refine ⟨c, hc, Or.inl ⟨hag, hnp c hc hag, rfl, ?_⟩⟩
        show c.loc = [goal_loc]
        rw [hu, ← hcontra, hloc]
      exact hfut _ hmem (by omega) rfl
  · intro u v huv hne hcontra
    obtain ⟨hprev, hcurr⟩ := hcontra
    by_cases hin : c.timestep < p.length
    · have := hnegstep c.timestep ht1 hin
      unfold ConstraintTable.is_negatively_constrained at this
      rw [Bool.or_eq_false_iff] at this
      have hec : (ConstraintTable.ofConstraints constraints agent).negContains
          c.timestep [get_location p (c.timestep - 1),
            get_location p c.timestep] = true := by
        rw [negContains_iff]
        exact ⟨c, hc, Or.inl ⟨hag, hnp c hc hag, rfl,
          by rw [huv, hprev, hcurr]⟩⟩
      rw [this.2] at hec
      exact absurd hec (by simp)
    · have hloc1 : get_location p (c.timestep - 1) = goal_loc := by
        rw [get_location_of_last p (by omega), hlast]
      have hloc2 : get_location p c.timestep = goal_loc := by
        rw [get_location_of_last p (by omega), hlast]
      apply hne
      rw [← hprev, ← hcurr, hloc1, hloc2]

/-- C2 (witness): on the 1×2 corridor with a negative vertex constraint on
the goal cell at timestep 1, the returned path waits and is not at `(0,1)`
at timestep 1. -/
theorem C2_witness :
    get_location [(0, 0), (0, 0), (0, 1)] 1 ≠ (0, 1) :=
  (C2_a_star_negative_constraints ⟨[[false, false]]⟩ (0, 0) (0, 1) hTableB 0
      [⟨0, [(0, 1)], 1, false⟩] 10 [(0, 0), (0, 0), (0, 1)]
      (by decide) (by rfl) ⟨0, [(0, 1)], 1, false⟩ (by decide) rfl
      (by decide)).1 (0, 1) rfl

/-- C4 (code bug): on the 3×1 corridor `[[free],[blocked],[free]]` with an
agent whose start `(0,0)` is disconnected from its goal `(2,0)`, the goal's
heuristic table contains only the goal itself, so the start has no entry.
`a_star`'s first operation is the dict access `h_values[start_loc]`, which
in Python raises `KeyError((0, 0))` — not the documented
`BaseException("No solutions")` — and that `KeyError` escapes root
construction.  (Whenever the start does have a heuristic entry it is
connected to the goal and `a_star` under the empty constraint set finds a
path, so the `NoRootSolution` branch cannot fire during root
construction.) -/
theorem C4_heuristic_keyerror_at_failing_input :
    (⟨[[false], [true], [false]]⟩ : GridMap).compute_heuristics (2, 0) 10 =
      some [((2, 0), 0)] ∧
    lookupAssoc [(((2 : Int), (0 : Int)), 0)] ((0 : Int), (0 : Int)) = none := by
  exact ⟨rfl, rfl⟩

/-- C5: for a free goal cell, `compute_heuristics` returns a table whose
domain is exactly the set of cells from which the goal is reachable on the
free 4-connected subgraph, with `table[goal] = 0`, every stored value equal
to the shortest-path distance to the goal with unit edge costs, and
unreachable cells absent. -/
theorem C5_compute_heuristics_exact (m : GridMap) (goal : Vertex)
    (fuel : Nat) (D : List (Vertex × Nat)) (hfree : m.is_free goal = true)
    (hres : m.compute_heuristics goal fuel = some D) :
    lookupAssoc D goal = some 0 ∧
    (∀ v d, lookupAssoc D v = some d →
      FreePath m v goal d ∧ ∀ k, FreePath m v goal k → d ≤ k) ∧
    (∀ v, (∃ k, FreePath m v goal k) → ∃ d, lookupAssoc D v = some d) ∧
    (∀ v, (∀ k, ¬ FreePath m v goal k) → lookupAssoc D v = none) := by
  obtain ⟨h0, hval, hdom⟩ := compute_heuristics_spec m goal fuel D hres
  refine ⟨h0, ?_, ?_, ?_⟩
  · intro v d hv
    obtain ⟨hwalk, hmin⟩ := hval v d hv
    refine ⟨codeWalk_to_freePath m goal hfree v d hwalk, ?_⟩
    intro k hk
    exact hmin k (freePath_to_codeWalk m goal v k hk)
  · rintro v ⟨k, hk⟩
    exact hdom v k (freePath_to_codeWalk m goal v k hk)
  · intro v hnone
    cases hd : lookupAssoc D v with
    | none => rfl
    | some d =>
      obtain ⟨hwalk, _⟩ := hval v d hd
      exact absurd (codeWalk_to_freePath m goal hfree v d hwalk) (hnone d)

/-- C5 (witness): on the 1×2 corridor the table maps the goal to 0. -/
theorem C5_witness :
    lookupAssoc [(((0 : Int), (0 : Int)), 1), (((0 : Int), (1 : Int)), 0)]
      ((0 : Int), (1 : Int)) = some 0 :=
  (C5_compute_heuristics_exact ⟨[[false, false]]⟩ (0, 1) 10
    [((0, 0), 1), ((0, 1), 0)] (by decide) (by rfl)).1

/-- C6: `detect_collision` returns `None` exactly when no collision exists,
and otherwise the earliest collision: a vertex collision `(t, (u,), a1,
a2)` with both paths at `u` at `t`, or an edge collision `(t+1, (u, u'),
a1, a2)` with the agents swapping over the edge during `t → t+1`; no
collision has a strictly smaller recorded timestep. -/
theorem C6_detect_collision_first (a1 a2 : Nat) (p1 p2 : Path)
    (h1 : p1 ≠ []) (h2 : p2 ≠ []) :
    (detect_collision a1 p1 a2 p2 = none → ∀ τ, ¬ collAt p1 p2 τ) ∧
    (∀ c, detect_collision a1 p1 a2 p2 = some c →
      c.agent_1 = a1 ∧ c.agent_2 = a2 ∧
      (∀ τ, τ < c.timestep → ¬ collAt p1 p2 τ) ∧
      ((c.conflict = [get_location p1 c.timestep] ∧
          vertexCollAt p1 p2 c.timestep) ∨
       (1 ≤ c.timestep ∧ swapAt p1 p2 (c.timestep - 1) ∧
          c.conflict = [get_location p1 (c.timestep - 1),
            get_location p1 c.timestep]))) := by
  constructor
  · exact detect_collision_none a1 a2 p1 p2 h1 h2
  · intro c hc
    obtain ⟨hmin, hshape, hag1, hag2⟩ := detect_collision_spec a1 a2 p1 p2 c hc
    refine ⟨hag1, hag2, hmin, ?_⟩
    rcases hshape with ⟨hconf, hv⟩ | ⟨ht1, _, hs, hconf⟩
    · exact Or.inl ⟨hconf, hv⟩
    · exact Or.inr ⟨ht1, hs, hconf⟩

/-- C6 (witness): two agents swapping over `(0,0)–(0,1)` produce an edge
collision at timestep 1, and there is no collision at timestep 0. -/
theorem C6_witness :
    ¬ collAt [(0, 0), (0, 1)] [(0, 1), (0, 0)] 0 :=
  ((C6_detect_collision_first 0 1 [(0, 0), (0, 1)] [(0, 1), (0, 0)]
      (by decide) (by decide)).2 ⟨1, [(0, 0), (0, 1)], 0, 1⟩ (by rfl)).2.2.1
    0 (by decide)

/-- C7: the per-agent constraint table is exactly as specified: the
negative bucket at `t` holds the agent's own negative constraints at `t`,
all positive constraints of other agents at `t`, and the reverse of other
agents' positive edge constraints; the positive bucket at `t` holds exactly
the agent's own positive constraints at `t`; and both buckets are pure
functions of the constraint *set* (any list with the same members yields
the same table contents). -/
theorem C7_constraint_table_exact (cs : List Constraint) (agent : Nat) :
    (∀ t loc, (ConstraintTable.ofConstraints cs agent).negContains t loc =
        true ↔ ∃ c ∈ cs, negMatch agent t loc c) ∧
    (∀ t loc, (ConstraintTable.ofConstraints cs agent).posContains t loc =
        true ↔ ∃ c ∈ cs, posMatch agent t loc c) ∧
    (∀ cs2, (∀ c, c ∈ cs ↔ c ∈ cs2) → ∀ t loc,
      (ConstraintTable.ofConstraints cs agent).negContains t loc =
        (ConstraintTable.ofConstraints cs2 agent).negContains t loc ∧
      (ConstraintTable.ofConstraints cs agent).posContains t loc =
        (ConstraintTable.ofConstraints cs2 agent).posContains t loc) := by
  refine ⟨negContains_iff cs agent, posContains_iff cs agent, ?_⟩
  intro cs2 hmem t loc
  exact ⟨negContains_congr cs cs2 agent hmem t loc,
    posContains_congr cs cs2 agent hmem t loc⟩

/-- C7 (witness): another agent's positive edge constraint contributes the
reversed edge to this agent's negative bucket. -/
theorem C7_witness :
    (ConstraintTable.ofConstraints [⟨1, [(0, 0), (0, 1)], 3, true⟩]
      0).negContains 3 [(0, 1), (0, 0)] = true :=
  (C7_constraint_table_exact [⟨1, [(0, 0), (0, 1)], 3, true⟩] 0).1 3
    [(0, 1), (0, 0)] |>.mpr
    ⟨⟨1, [(0, 0), (0, 1)], 3, true⟩, by decide,
      Or.inr ⟨by decide, rfl, rfl, Or.inr ⟨rfl, rfl⟩⟩⟩

/-- C8: a popped node is accepted as a solution iff its location is the
goal and no future negative vertex constraint on the goal exists (and the
accepted path is the node's parent chain); consequently any path `a_star`
returns has no negative vertex constraint on the goal after its final
timestep — the search instead continues and the returned path waits past
such constraints. -/
theorem C8_goal_test (curr : AStarNode) (goal_loc : Vertex)
    (ct : ConstraintTable) :
    (∀ p, solution_found curr goal_loc ct = some p ↔
      curr.loc = goal_loc ∧
      (∀ e ∈ ct.negative_entries, curr.timestep < e.1 → e.2 ≠ [goal_loc]) ∧
      p = get_path curr) ∧
    (∀ grid_map start_loc h_values agent constraints fuel p,
      a_star grid_map start_loc goal_loc h_values agent constraints fuel =
        some (some p) →
      ∀ e ∈ (ConstraintTable.ofConstraints constraints agent).negative_entries,
        p.length - 1 < e.1 → e.2 ≠ [goal_loc]) := by
  constructor
  · intro p
    exact solution_found_eq_some curr goal_loc ct p
  · intro grid_map start_loc h_values agent constraints fuel p hres
    exact (a_star_path_spec grid_map start_loc goal_loc h_values agent
      constraints fuel p hres).2.2.2.2

/-- C8 (witness): a node at the goal with a pending future negative vertex
constraint on the goal is rejected. -/
theorem C8_witness :
    ¬ (solution_found (.root (0, 1) 0 0 0) (0, 1)
        (ConstraintTable.ofConstraints [⟨0, [(0, 1)], 1, false⟩] 0) =
      some [(0, 1)]) := by
  intro hcontra
  have h := ((C8_goal_test (.root (0, 1) 0 0 0) (0, 1)
    (ConstraintTable.ofConstraints [⟨0, [(0, 1)], 1, false⟩] 0)).1
    [(0, 1)]).mp hcontra
  have := h.2.1 (1, [(0, 1)]) (by decide) (by decide)
  exact this rfl

/-- C9: the low-level planner is a pure function of its inputs where the
constraint set enters only through its membership: two constraint lists
with the same members (in particular any two orderings of the same set)
give identical `a_star` results, path for path. -/
theorem C9_a_star_deterministic (grid_map : GridMap)
    (start_loc goal_loc : Vertex) (h_values : Vertex → Nat) (agent : Nat)
    (cs1 cs2 : List Constraint) (fuel : Nat)
    (hmem : ∀ c, c ∈ cs1 ↔ c ∈ cs2) :
    a_star grid_map start_loc goal_loc h_values agent cs1 fuel =
    a_star grid_map start_loc goal_loc h_values agent cs2 fuel :=
  a_star_mem_congr grid_map start_loc goal_loc h_values agent cs1 cs2 hmem fuel

/-- C9 (witness): reordering a two-constraint set leaves the result of a
concrete run unchanged. -/
theorem C9_witness :
    a_star ⟨[[false, false]]⟩ (0, 0) (0, 1) hTableB 0
      [⟨0, [(0, 1)], 1, false⟩, ⟨0, [(0, 0), (0, 1)], 2, false⟩] 10 =
    a_star ⟨[[false, false]]⟩ (0, 0) (0, 1) hTableB 0
      [⟨0, [(0, 0), (0, 1)], 2, false⟩, ⟨0, [(0, 1)], 1, false⟩] 10 :=
  C9_a_star_deterministic ⟨[[false, false]]⟩ (0, 0) (0, 1) hTableB 0
    [⟨0, [(0, 1)], 1, false⟩, ⟨0, [(0, 0), (0, 1)], 2, false⟩]
    [⟨0, [(0, 0), (0, 1)], 2, false⟩, ⟨0, [(0, 1)], 1, false⟩] 10
    (by intro c; constructor <;> (intro h; simp only [List.mem_cons,
      List.mem_singleton] at h ⊢; tauto))

/-- C10: every collision `detect_collision` returns is either a vertex
collision with a 1-vertex conflict, or an edge collision `(t+1, (u, u'))`
with `u ≠ u'` in which the agents genuinely swap (agent 1 moves `u → u'`
while agent 2 moves `u' → u`); the "same edge" branch can never produce
the returned value, since equal locations are already returned as a vertex
collision. -/
theorem C10_collision_shapes (a1 a2 : Nat) (p1 p2 : Path) (c : Collision)
    (hc : detect_collision a1 p1 a2 p2 = some c) :
    (∃ u, c.conflict = [u] ∧ get_location p1 c.timestep = u ∧
      get_location p2 c.timestep = u) ∨
    (∃ u u2, c.conflict = [u, u2] ∧ u ≠ u2 ∧ 1 ≤ c.timestep ∧
      get_location p1 (c.timestep - 1) = u ∧
      get_location p1 c.timestep = u2 ∧
      get_location p2 (c.timestep - 1) = u2 ∧
      get_location p2 c.timestep = u) := by
  obtain ⟨_, hshape, _, _⟩ := detect_collision_spec a1 a2 p1 p2 c hc
  rcases hshape with ⟨hconf, hv⟩ | ⟨ht1, hnv, hs, hconf⟩
  · exact Or.inl ⟨get_location p1 c.timestep, hconf, rfl, hv.symm⟩
  · refine Or.inr ⟨get_location p1 (c.timestep - 1),
      get_location p1 c.timestep, hconf, ?_, ht1, rfl, rfl, ?_, ?_⟩
    · intro heq
      apply hnv
      unfold vertexCollAt
      unfold swapAt at hs
      rw [heq]
      have harith : c.timestep - 1 + 1 = c.timestep := by omega
      rw [harith] at hs
      exact hs.2
    · unfold swapAt at hs
      have harith : c.timestep - 1 + 1 = c.timestep := by omega
      rw [harith] at hs
      exact hs.2.symm
    · unfold swapAt at hs
      have harith : c.timestep - 1 + 1 = c.timestep := by omega
      rw [harith] at hs
      exact hs.1.symm

/-- C10 (witness): the swap instance yields the edge collision
`(1, ((0,0), (0,1)))` with distinct endpoints. -/
theorem C10_witness :
    (∃ u, ([(0, 0), (0, 1)] : List Vertex) = [u] ∧
      get_location [(0, 0), (0, 1)] 1 = u ∧
      get_location [(0, 1), (0, 0)] 1 = u) ∨
    (∃ u u2, ([(0, 0), (0, 1)] : List Vertex) = [u, u2] ∧ u ≠ u2 ∧
      (1 : Nat) ≤ 1 ∧
      get_location [(0, 0), (0, 1)] 0 = u ∧
      get_location [(0, 0), (0, 1)] 1 = u2 ∧
      get_location [(0, 1), (0, 0)] 0 = u2 ∧
      get_location [(0, 1), (0, 0)] 1 = u) :=
  C10_collision_shapes 0 1 [(0, 0), (0, 1)] [(0, 1), (0, 0)]
    ⟨1, [(0, 0), (0, 1)], 0, 1⟩ (by rfl)

/-- Beyond its last index, a path's time-indexed location is its final
vertex. -/
theorem get_location_of_length_le (p : Path) (t : Nat) (h : p.length ≤ t) :
    get_location p t = p.getLastD (0, 0) := by
  unfold get_location
  rw [if_neg (by omega)]

/-- C3 (code bug): with disjoint splitting on the obstacle-free 2×3 grid,
starts `(1,0)`, `(0,1)`, `(1,1)`, goals `(0,2)`, `(0,1)`, `(0,0)` and coin
stream `0,0,1,0,0` repeating, `find_solution` returns a conflict-free
solution of sum-of-costs 8, although a valid collision-free solution of
sum-of-costs 7 exists (identical except that agent 1 skips a wait step);
the returned solution is not optimal.  Every heap pop of this run has a
unique minimal key, so the run retraces the Python heap exactly. -/
theorem C3_disjoint_splitting_suboptimal :
    find_solution mapC3 startsC3 goalsC3 true rngC3 8 10 32 =
      some (.ok pathsC3) ∧
    detect_collisions pathsC3 = [] ∧
    get_sum_of_cost pathsC3 = 8 ∧
    validSolution mapC3 startsC3 goalsC3 cheaperC3 ∧
    get_sum_of_cost cheaperC3 = 7 := by
  have hlen : ∀ i, i < 3 → (cheaperC3.getD i []).length ≤ 4 := by decide
  have hlast : ∀ i, i < 3 →
      (cheaperC3.getD i []).getLastD (0, 0) = goalsC3.getD i (0, 0) := by
    decide
  have hgoals : ∀ i, i < 3 → ∀ j, j < 3 → i ≠ j →
      goalsC3.getD i (0, 0) ≠ goalsC3.getD j (0, 0) := by decide
  refine ⟨by decide!, by rfl, by rfl, ⟨by rfl, by rfl, ?_, ?_⟩, by rfl⟩
  · intro i hi
    have hi3 : i < 3 := hi
    refine ⟨?_, ?_, ?_, ?_, ?_⟩
    · revert hi3; clear hi; revert i; decide
    · revert hi3; clear hi; revert i; decide
    · revert hi3; clear hi; revert i; decide
    · revert hi3; clear hi; revert i; decide
    · intro t
      rcases Nat.lt_or_ge t 4 with ht | ht
      · revert hi3; clear hi; revert i
        interval_cases t <;> decide
      · left
        have hli := hlen i hi3
        rw [get_location_of_length_le _ (t + 1) (by omega),
          get_location_of_length_le _ t (by omega)]
  · intro i j hi hj hij t
    have hi3 : i < 3 := hi
    have hj3 : j < 3 := hj
    rcases Nat.lt_or_ge t 4 with ht | ht
    · clear hi hj
      interval_cases i <;> interval_cases j <;>
        first
          | exact absurd rfl hij
          | (interval_cases t <;> exact ⟨by decide, by decide⟩)
    · have hli := hlen i hi3
      have hlj := hlen j hj3
      constructor
      · intro hcol
        unfold vertexCollAt at hcol
        rw [get_location_of_length_le _ t (by omega),
          get_location_of_length_le _ t (by omega),
          hlast i hi3, hlast j hj3] at hcol
        exact hgoals i hi3 j hj3 hij hcol
      · intro hswap
        obtain ⟨h1, _⟩ := hswap
        rw [get_location_of_length_le _ t (by omega),
          get_location_of_length_le _ (t + 1) (by omega),
          hlast i hi3, hlast j hj3] at h1
        exact hgoals i hi3 j hj3 hij h1

end MAPF

